import Mathlib

/-!
# Go-WebSocket: the broadcast relay of `server.go`

Shallow embedding of the chat relay in `src/server.go`:

* `var clients = make(map[*websocket.Conn]bool)` (line 21) and
  `var broadcast = make(chan Message)` (line 22, an unbuffered channel);
* `handleConnections` (lines 91-115), one goroutine per inbound request;
* `handleMessages` (lines 117-131), the single broadcast goroutine.

The program state is passed explicitly.  Every statement that touches the
registry, a connection or the channel appends an `Event` to a history, so
that "written exactly once", "closed" or "taken in this order" can be
counted afterwards.  The goroutines are interleaved by a step function over
labelled actions; the results of the library calls `Upgrade`, `ReadJSON`
and `WriteJSON` are supplied by the action (they are inputs of the program).

Conventions of the embedding:

* a step is atomic.  `server.go` accesses the map `clients` from several
  goroutines without synchronisation; the steps here are interleaved but
  never simultaneous, so the behaviour of the Go runtime under a data race
  (it stops the process with `fatal error: concurrent map writes`) is not
  represented: a run of `step` tells what the statements do when the
  runtime lets them through;
* `range clients` produces the keys that the map holds when the pass
  starts, in an order chosen by the runtime (any permutation); a key whose
  entry has been removed before the iteration reaches it is not produced,
  and an entry inserted while a pass is running is left to the next pass
  (Go allows it to be produced or skipped);
* `Upgrade` returns a new connection each time: a connection identity is
  never handed out twice;
* the channel `broadcast` is unbuffered: a send and the receive are one
  joint step of the reader and of the broadcast loop.
-/

set_option linter.dupNamespace false

namespace GoWebSocket

/-- The message object of `server.go`, lines 32-36. -/
structure Message where
  Email : String
  Username : String
  Message : String
  deriving DecidableEq, Repr

/-- Identity of a `*websocket.Conn`: Go compares the map keys by pointer. -/
abbrev Conn := Nat

/-- Reasons for which `ws.ReadJSON(&msg)` returns a non-nil error. -/
inductive ReadError where
  | peerClosed
  | transport
  | malformed
  deriving DecidableEq, Repr

/-- Observable history of the program, one entry per executed statement. -/
inductive Event where
  /-- Line 101, `clients[ws] = true`. -/
  | registered (c : Conn)
  /-- Lines 109 and 127, `delete(clients, c)`. -/
  | deleted (c : Conn)
  /-- Line 106, `ReadJSON` on `c` decoded `m`. -/
  | read (c : Conn) (m : Message)
  /-- Line 106, `ReadJSON` on `c` returned an error. -/
  | readErr (c : Conn) (e : ReadError)
  /-- Line 120, `msg := <-broadcast` received `m`, sent by the reader of `c`. -/
  | taken (c : Conn) (m : Message)
  /-- Line 123, `client.WriteJSON(msg)` returned nil: `m` was written to `c`. -/
  | wrote (c : Conn) (m : Message)
  /-- Line 123, `client.WriteJSON(msg)` returned an error. -/
  | writeErr (c : Conn) (m : Message)
  /-- A `Close` call released the transport of `c`. -/
  | released (c : Conn)
  /-- Lines 108 and 125, `log.Printf("error: %v", err)`. -/
  | logged
  /-- Line 95, `log.Fatal(err)`. -/
  | fatal
  deriving DecidableEq, Repr

/-- The sequential data of the program: the `clients` map, the liveness of
the connections, and the history of effects. -/
structure World where
  /-- The map `clients`, as an association list whose keys are distinct. -/
  clients : List (Conn × Bool)
  /-- Connections whose transport has been released by `Close`. -/
  closed : List Conn
  /-- History of effects, oldest first. -/
  trace : List Event
  deriving DecidableEq, Repr

/-- Keys of a Go map. -/
def mapKeys (m : List (Conn × Bool)) : List Conn := m.map Prod.fst

/-- Go map assignment `m[k] = v`: overwrites the entry of `k` when there is
one, adds an entry otherwise. -/
def mapSet (m : List (Conn × Bool)) (k : Conn) (v : Bool) : List (Conn × Bool) :=
  if k ∈ mapKeys m then m.map (fun e => if e.1 = k then (k, v) else e)
  else m ++ [(k, v)]

/-- Go builtin `delete(m, k)`: removes the entry of `k`; does nothing (and
does not fail) when `k` has no entry. -/
def mapDelete (m : List (Conn × Bool)) (k : Conn) : List (Conn × Bool) :=
  m.filter (fun e => decide (e.1 ≠ k))

/-- Append one entry to the history. -/
def emit (e : Event) (w : World) : World :=
  { w with trace := w.trace ++ [e] }

/-- Modelled from the spec: `websocket.Conn.Close` belongs to the
gorilla/websocket library, which is not part of the repository.  Spec 4.1:
"`close()` is idempotent and releases the underlying transport resource".
The first call releases the transport; a later call finds it released and
only returns an error, which both call sites of `server.go` discard. -/
def connClose (c : Conn) (w : World) : World :=
  if c ∈ w.closed then w
  else emit (Event.released c) { w with closed := c :: w.closed }

/-- Line 101: `clients[ws] = true`. -/
def registerClient (ws : Conn) (w : World) : World :=
  emit (Event.registered ws) { w with clients := mapSet w.clients ws true }

/-- Lines 109 and 127: `delete(clients, c)`. -/
def deleteClient (c : Conn) (w : World) : World :=
  emit (Event.deleted c) { w with clients := mapDelete w.clients c }

/-- Body of the loop `for client := range clients` (lines 123-128) for one
client; `ok` tells whether `client.WriteJSON(msg)` returned nil.
On an error: `log.Printf`, `client.Close()`, `delete(clients, client)`. -/
def visitClient (msg : Message) (ok : Bool) (client : Conn) (w : World) : World :=
  if ok then emit (Event.wrote client msg) w
  else
    deleteClient client
      (connClose client (emit Event.logged (emit (Event.writeErr client msg) w)))

/-- One iteration of `range clients`: Go does not produce an entry that was
removed from the map before the iteration reached it. -/
def rangeBody (msg : Message) (ok : Bool) (client : Conn) (w : World) : World :=
  if client ∈ mapKeys w.clients then visitClient msg ok client w else w

/-- The broadcast pass `for client := range clients { ... }` of
`handleMessages` (lines 122-129) for the message `msg`, run without
interference.  `order` is the order in which the Go runtime produces the
keys (unspecified by the language); `ok c` is the outcome of `WriteJSON`
on `c` during this pass. -/
def rangeClients (msg : Message) (ok : Conn → Bool) : List Conn → World → World
  | [], w => w
  | c :: rest, w => rangeClients msg ok rest (rangeBody msg (ok c) c w)

/-- The effects that one uninterrupted broadcast pass adds to the history. -/
def passEffects (msg : Message) (ok : Conn → Bool) (order : List Conn) (w : World) :
    List Event :=
  (rangeClients msg ok order w).trace.drop w.trace.length

/-- Failure branch of the read loop of `handleConnections` (lines 107-111)
followed by the deferred `ws.Close()` of line 98: `log.Printf`,
`delete(clients, ws)`, `break`, then the function returns and closes `ws`. -/
def readFailure (ws : Conn) (e : ReadError) (w : World) : World :=
  connClose ws (deleteClient ws (emit Event.logged (emit (Event.readErr ws e) w)))

/-- Control point of one goroutine running `handleConnections`. -/
inductive Reader where
  /-- At `ws.ReadJSON(&msg)`, line 106. -/
  | reading
  /-- Blocked on `broadcast <- msg`, line 113, holding the decoded message. -/
  | sending (msg : Message)
  /-- After `break`: the function has returned and the deferred close ran. -/
  | returned
  deriving DecidableEq, Repr

/-- Control point of the goroutine running `handleMessages`. -/
inductive Hub where
  /-- Blocked on `msg := <-broadcast`, line 120. -/
  | waiting
  /-- Inside `for client := range clients`, lines 122-129: the message of
  this pass and the keys that the iteration has not reached yet. -/
  | ranging (msg : Message) (todo : List Conn)
  deriving DecidableEq, Repr

/-- State of the running process. -/
structure Sys where
  world : World
  /-- Control point of the handler goroutine of each connection; `none` for
  a connection that `Upgrade` has not produced yet. -/
  readers : Conn → Option Reader
  hub : Hub
  /-- Set by `log.Fatal`, which ends the process with `os.Exit(1)`. -/
  exited : Bool

/-- Steps of the program.  The outcome of each library call is part of the
label. -/
inductive Action where
  /-- A request reaches `/ws`: `upgrader.Upgrade` returns a connection
  (`some ws`) or an error (`none`), lines 93-101. -/
  | request (up : Option Conn)
  /-- `ReadJSON` on `c` decodes `m`, line 106. -/
  | readOk (c : Conn) (m : Message)
  /-- `ReadJSON` on `c` fails, lines 106-111 and the deferred close. -/
  | readFail (c : Conn) (e : ReadError)
  /-- Rendezvous on the unbuffered channel: `broadcast <- msg` of the reader
  of `c` (line 113) meets `msg := <-broadcast` (line 120), and the range
  over `clients` starts, producing the keys in the order `order`. -/
  | handoff (c : Conn) (order : List Conn)
  /-- One iteration of the range loop, with the outcome of `WriteJSON`. -/
  | visit (ok : Bool)
  /-- The range is exhausted: back to the head of the `for` loop. -/
  | endPass
  deriving DecidableEq, Repr

/-- Whether the action is executed by the goroutine of `handleMessages`.
The other actions are executed by a goroutine of `handleConnections`. -/
def Action.inBroadcastLoop : Action → Bool
  | Action.handoff _ _ => true
  | Action.visit _ => true
  | Action.endPass => true
  | _ => false

/-- The connection whose handler goroutine takes part in the action. -/
def Action.conn : Action → Option Conn
  | Action.request up => up
  | Action.readOk c _ => some c
  | Action.readFail c _ => some c
  | Action.handoff c _ => some c
  | _ => none

/-- Replace the control point of the handler of `c`. -/
def setReader (f : Conn → Option Reader) (c : Conn) (r : Reader) : Conn → Option Reader :=
  fun x => if x = c then some r else f x

/-- Steps of a goroutine running `handleConnections` (lines 91-115). -/
def handleConnectionsStep (s : Sys) : Action → Option Sys
  | Action.request none =>
      -- lines 93-96: `if err != nil { log.Fatal(err) }`
      some { s with world := emit Event.fatal s.world, exited := true }
  | Action.request (some ws) =>
      -- lines 93-101: `Upgrade` yields a new connection, which is registered
      match s.readers ws with
      | some _ => none
      | none =>
        some { s with world := registerClient ws s.world,
                      readers := setReader s.readers ws Reader.reading }
  | Action.readOk c m =>
      -- line 106 with `err == nil`; the goroutine moves to line 113
      match s.readers c with
      | some Reader.reading =>
        some { s with world := emit (Event.read c m) s.world,
                      readers := setReader s.readers c (Reader.sending m) }
      | _ => none
  | Action.readFail c e =>
      -- lines 106-111, then the deferred close of line 98
      match s.readers c with
      | some Reader.reading =>
        some { s with world := readFailure c e s.world,
                      readers := setReader s.readers c Reader.returned }
      | _ => none
  | _ => none

/-- Steps of the goroutine running `handleMessages` (lines 117-131). -/
def handleMessagesStep (s : Sys) : Action → Option Sys
  | Action.handoff c order =>
      -- line 120 receives what the reader of `c` sends at line 113
      match s.readers c, s.hub with
      | some (Reader.sending m), Hub.waiting =>
        if order.isPerm (mapKeys s.world.clients) then
          some { s with world := emit (Event.taken c m) s.world,
                        readers := setReader s.readers c Reader.reading,
                        hub := Hub.ranging m order }
        else none
      | _, _ => none
  | Action.visit ok =>
      -- lines 122-129, one iteration
      match s.hub with
      | Hub.ranging msg (c :: rest) =>
        some { s with world := rangeBody msg ok c s.world, hub := Hub.ranging msg rest }
      | _ => none
  | Action.endPass =>
      match s.hub with
      | Hub.ranging _ [] => some { s with hub := Hub.waiting }
      | _ => none
  | _ => none

/-- One step of the process; `none` when the action is not enabled.  After
`log.Fatal` the process is gone and no goroutine runs any more. -/
def step (s : Sys) (a : Action) : Option Sys :=
  if s.exited then none
  else if a.inBroadcastLoop then handleMessagesStep s a
  else handleConnectionsStep s a

/-- Run a sequence of actions (one interleaving of the goroutines). -/
def run : Sys → List Action → Option Sys
  | s, [] => some s
  | s, a :: rest =>
    match step s a with
    | some s1 => run s1 rest
    | none => none

/-- State after `main` has started `go handleMessages()` (line 270): the
registry is empty, nothing happened yet, the broadcast loop waits. -/
def init : Sys :=
  { world := { clients := [], closed := [], trace := [] },
    readers := fun _ => none,
    hub := Hub.waiting,
    exited := false }

/-- Number of times `msg` was successfully written to `h`. -/
def deliveries (h : Conn) (msg : Message) (tr : List Event) : Nat :=
  tr.count (Event.wrote h msg)

/-- Whether the entry is a `WriteJSON` call on `h` (successful or not). -/
def isWriteTo (h : Conn) : Event → Bool
  | Event.wrote c _ => decide (c = h)
  | Event.writeErr c _ => decide (c = h)
  | _ => false

/-- Number of `WriteJSON` calls on `h`, that is, of visits of `h` by the
range loop. -/
def writeAttempts (h : Conn) (tr : List Event) : Nat :=
  tr.countP (isWriteTo h)

/-- Messages that the broadcast loop took from the channel and that were
sent by the reader of `c`, in order. -/
def takenFrom (c : Conn) (tr : List Event) : List Message :=
  tr.filterMap (fun e => match e with
    | Event.taken c1 m => if c1 = c then some m else none
    | _ => none)

/-- Messages that the reader of `c` decoded, in order. -/
def readBy (c : Conn) (tr : List Event) : List Message :=
  tr.filterMap (fun e => match e with
    | Event.read c1 m => if c1 = c then some m else none
    | _ => none)

/-- The message a reader holds while blocked on the channel send. -/
def pendingOf : Option Reader → List Message
  | some (Reader.sending m) => [m]
  | _ => []

/-- The message of the scenario of the specification, section 8. -/
def hello : Message := { Email := "", Username := "a", Message := "hi" }

/-- The second message of that scenario. -/
def again : Message := { Email := "", Username := "a", Message := "again" }

/-- Scenario of the specification, section 8: connections 0, 1 and 2 (A, B
and C) connect; A sends `hello`, which is written to all three; then the
transport of B is closed and A sends `again`.  The list stops when the
second pass, which iterates in the order A, B, C, has written to A and is
about to write to B. -/
def scenario : List Action :=
  [Action.request (some 0), Action.request (some 1), Action.request (some 2),
   Action.readOk 0 hello, Action.handoff 0 [0, 1, 2],
   Action.visit true, Action.visit true, Action.visit true, Action.endPass,
   Action.readOk 0 again, Action.handoff 0 [0, 1, 2], Action.visit true]

/-- The process with one registered connection, 0, whose handler is at
`ReadJSON`: the state reached by `run init [Action.request (some 0)]`. -/
def oneClient : Sys :=
  { world := { clients := [(0, true)], closed := [], trace := [Event.registered 0] },
    readers := fun x => if x = 0 then some Reader.reading else none,
    hub := Hub.waiting,
    exited := false }

/-- Two connections whose readers run concurrently: 0 decodes `hello` and
1 decodes `again` before the broadcast loop takes either; the loop serves 1
first; 0 then sends a second message.  The list stops while the reader of
0 is blocked on the send of that second message. -/
def twoSenders : List Action :=
  [Action.request (some 0), Action.request (some 1),
   Action.readOk 0 hello, Action.readOk 1 again,
   Action.handoff 1 [0, 1], Action.visit true, Action.visit true, Action.endPass,
   Action.handoff 0 [1, 0], Action.visit true, Action.readOk 0 again, Action.visit true]

/-! ## The registry as a Go map -/

theorem mem_mapKeys_mapDelete (m : List (Conn × Bool)) (c k : Conn) :
    k ∈ mapKeys (mapDelete m c) ↔ k ∈ mapKeys m ∧ k ≠ c := by
  unfold mapKeys mapDelete
  simp only [List.mem_map, List.mem_filter, decide_eq_true_eq]
  constructor
  · rintro ⟨e, ⟨he, hne⟩, rfl⟩
    exact ⟨⟨e, he, rfl⟩, hne⟩
  · rintro ⟨⟨e, he, rfl⟩, hne⟩
    exact ⟨e, ⟨he, hne⟩, rfl⟩

theorem mem_mapKeys_mapSet (m : List (Conn × Bool)) (c k : Conn) (v : Bool) :
    k ∈ mapKeys (mapSet m c v) ↔ k ∈ mapKeys m ∨ k = c := by
  unfold mapSet
  split
  · rename_i hc
    unfold mapKeys at *
    simp only [List.mem_map]
    constructor
    · rintro ⟨e, ⟨e0, he0, rfl⟩, rfl⟩
      by_cases h : e0.1 = c
      · right; simp [h]
      · left; exact ⟨e0, he0, by simp [h]⟩
    · rintro (⟨e, he, rfl⟩ | rfl)
      · by_cases h : e.1 = c
        · exact ⟨(c, v), ⟨e, he, by simp [h]⟩, h.symm⟩
        · exact ⟨e, ⟨e, he, by simp [h]⟩, rfl⟩
      · obtain ⟨e, he, hk⟩ := List.mem_map.mp hc
        exact ⟨(k, v), ⟨e, he, by simp [hk]⟩, rfl⟩
  · unfold mapKeys
    simp [List.mem_append]

theorem mapDelete_of_not_mem (m : List (Conn × Bool)) (c : Conn)
    (h : c ∉ mapKeys m) : mapDelete m c = m := by
  unfold mapDelete
  rw [List.filter_eq_self]
  intro e he
  simp only [decide_eq_true_eq]
  intro hc
  exact h (List.mem_map.mpr ⟨e, he, hc⟩)

/-! ## Effects of the single statements -/

@[simp] theorem emit_clients (e : Event) (w : World) : (emit e w).clients = w.clients := rfl

@[simp] theorem emit_closed (e : Event) (w : World) : (emit e w).closed = w.closed := rfl

@[simp] theorem emit_trace (e : Event) (w : World) : (emit e w).trace = w.trace ++ [e] := rfl

@[simp] theorem connClose_clients (c : Conn) (w : World) :
    (connClose c w).clients = w.clients := by
  unfold connClose; split <;> rfl

theorem connClose_closed (c : Conn) (w : World) :
    (connClose c w).closed = if c ∈ w.closed then w.closed else c :: w.closed := by
  unfold connClose; split <;> rfl

theorem connClose_trace (c : Conn) (w : World) :
    (connClose c w).trace
      = w.trace ++ (if c ∈ w.closed then [] else [Event.released c]) := by
  unfold connClose; split <;> simp

theorem mem_connClose_closed (c x : Conn) (w : World) :
    x ∈ (connClose c w).closed ↔ x = c ∨ x ∈ w.closed := by
  rw [connClose_closed]
  split
  · rename_i h
    constructor
    · exact fun hx => Or.inr hx
    · rintro (rfl | hx)
      · exact h
      · exact hx
  · simp

@[simp] theorem deleteClient_clients (c : Conn) (w : World) :
    (deleteClient c w).clients = mapDelete w.clients c := rfl

@[simp] theorem deleteClient_closed (c : Conn) (w : World) :
    (deleteClient c w).closed = w.closed := rfl

@[simp] theorem deleteClient_trace (c : Conn) (w : World) :
    (deleteClient c w).trace = w.trace ++ [Event.deleted c] := rfl

@[simp] theorem registerClient_clients (c : Conn) (w : World) :
    (registerClient c w).clients = mapSet w.clients c true := rfl

@[simp] theorem registerClient_closed (c : Conn) (w : World) :
    (registerClient c w).closed = w.closed := rfl

@[simp] theorem registerClient_trace (c : Conn) (w : World) :
    (registerClient c w).trace = w.trace ++ [Event.registered c] := rfl

/-- Effects that the loop body adds when it is run for `c` in `w`. -/
theorem visitClient_trace (msg : Message) (ok : Bool) (c : Conn) (w : World) :
    (visitClient msg ok c w).trace
      = w.trace ++ (if ok then [Event.wrote c msg]
          else [Event.writeErr c msg, Event.logged]
            ++ (if c ∈ w.closed then [] else [Event.released c]) ++ [Event.deleted c]) := by
  unfold visitClient
  cases ok
  · simp [connClose_trace]
  · simp

theorem visitClient_clients (msg : Message) (ok : Bool) (c : Conn) (w : World) :
    (visitClient msg ok c w).clients = if ok then w.clients else mapDelete w.clients c := by
  unfold visitClient
  cases ok <;> simp

theorem mem_visitClient_closed (msg : Message) (ok : Bool) (c x : Conn) (w : World) :
    x ∈ (visitClient msg ok c w).closed ↔ (ok = false ∧ x = c) ∨ x ∈ w.closed := by
  unfold visitClient
  cases ok
  · simp [mem_connClose_closed]
  · simp

/-! ## One uninterrupted broadcast pass -/

theorem rangeBody_clients (msg : Message) (ok : Bool) (c : Conn) (w : World) :
    (rangeBody msg ok c w).clients = if ok then w.clients else mapDelete w.clients c := by
  unfold rangeBody
  split
  · exact visitClient_clients msg ok c w
  · rename_i h
    cases ok
    · simp [mapDelete_of_not_mem _ _ h]
    · simp

theorem rangeBody_trace (msg : Message) (ok : Bool) (c : Conn) (w : World) :
    (rangeBody msg ok c w).trace
      = w.trace ++ (if c ∈ mapKeys w.clients then
          (if ok then [Event.wrote c msg]
           else [Event.writeErr c msg, Event.logged]
             ++ (if c ∈ w.closed then [] else [Event.released c]) ++ [Event.deleted c])
          else []) := by
  unfold rangeBody
  split
  · exact visitClient_trace msg ok c w
  · simp

theorem rangeClients_trace_extends (msg : Message) (ok : Conn → Bool) (order : List Conn) :
    ∀ w : World, ∃ es, (rangeClients msg ok order w).trace = w.trace ++ es := by
  induction order with
  | nil => intro w; exact ⟨[], by simp [rangeClients]⟩
  | cons c rest ih =>
    intro w
    obtain ⟨es, hes⟩ := ih (rangeBody msg (ok c) c w)
    rw [rangeBody_trace] at hes
    exact ⟨_, by rw [rangeClients, hes, List.append_assoc]⟩

theorem trace_eq_append_passEffects (msg : Message) (ok : Conn → Bool) (order : List Conn)
    (w : World) :
    (rangeClients msg ok order w).trace = w.trace ++ passEffects msg ok order w := by
  obtain ⟨es, hes⟩ := rangeClients_trace_extends msg ok order w
  unfold passEffects
  rw [hes, List.drop_left]

theorem passEffects_nil (msg : Message) (ok : Conn → Bool) (w : World) :
    passEffects msg ok [] w = [] := by
  simp [passEffects, rangeClients]

theorem passEffects_cons (msg : Message) (ok : Conn → Bool) (c : Conn) (rest : List Conn)
    (w : World) :
    passEffects msg ok (c :: rest) w
      = (if c ∈ mapKeys w.clients then
          (if ok c then [Event.wrote c msg]
           else [Event.writeErr c msg, Event.logged]
             ++ (if c ∈ w.closed then [] else [Event.released c]) ++ [Event.deleted c])
          else [])
        ++ passEffects msg ok rest (rangeBody msg (ok c) c w) := by
  have h1 := trace_eq_append_passEffects msg ok rest (rangeBody msg (ok c) c w)
  have h2 := trace_eq_append_passEffects msg ok (c :: rest) w
  rw [rangeClients, h1, rangeBody_trace, List.append_assoc] at h2
  exact (List.append_cancel_left h2).symm

/-- Registry after a pass: the entries whose write failed are gone, the
others are untouched (and keep their position). -/
theorem rangeClients_clients (msg : Message) (ok : Conn → Bool) (order : List Conn) :
    ∀ w : World, (rangeClients msg ok order w).clients
      = w.clients.filter (fun e => !(decide (e.1 ∈ order) && !(ok e.1))) := by
  induction order with
  | nil => intro w; simp [rangeClients]
  | cons c rest ih =>
    intro w
    rw [rangeClients, ih, rangeBody_clients]
    cases hc : ok c
    · simp only [Bool.false_eq_true, if_false]
      unfold mapDelete
      rw [List.filter_filter]
      apply List.filter_congr
      intro e _
      by_cases h : e.1 = c
      · simp [h, hc]
      · simp [h]
    · simp only [if_true]
      apply List.filter_congr
      intro e _
      by_cases h : e.1 = c
      · simp [h, hc]
      · simp [h]

theorem mem_rangeBody_closed (msg : Message) (ok : Bool) (c x : Conn) (w : World) :
    x ∈ (rangeBody msg ok c w).closed
      ↔ x ∈ w.closed ∨ (x = c ∧ c ∈ mapKeys w.clients ∧ ok = false) := by
  unfold rangeBody
  split
  · rename_i h
    rw [mem_visitClient_closed]
    constructor
    · rintro (⟨h1, h2⟩ | h1)
      · exact Or.inr ⟨h2, h, h1⟩
      · exact Or.inl h1
    · rintro (h1 | ⟨h1, _, h3⟩)
      · exact Or.inr h1
      · exact Or.inl ⟨h3, h1⟩
  · rename_i h
    constructor
    · exact fun h1 => Or.inl h1
    · rintro (h1 | ⟨_, h2, _⟩)
      · exact h1
      · exact absurd h2 h

/-- Connections closed after a pass: those closed before, and the
registered ones whose write failed. -/
theorem mem_rangeClients_closed (msg : Message) (ok : Conn → Bool) (order : List Conn)
    (x : Conn) :
    ∀ w : World, x ∈ (rangeClients msg ok order w).closed
      ↔ x ∈ w.closed ∨ (x ∈ order ∧ x ∈ mapKeys w.clients ∧ ok x = false) := by
  induction order with
  | nil => intro w; simp [rangeClients]
  | cons c rest ih =>
    intro w
    rw [rangeClients, ih, mem_rangeBody_closed, rangeBody_clients]
    by_cases hxc : x = c
    · subst hxc
      cases hx : ok x
      · simp [mem_mapKeys_mapDelete]
      · simp
    · cases hc : ok c
      · simp [mem_mapKeys_mapDelete, hxc]
      · simp [hxc]

/-- Number of successful writes of `msg` to `h` during a pass over distinct
registered keys. -/
theorem deliveries_passEffects (msg : Message) (ok : Conn → Bool) (h : Conn)
    (order : List Conn) :
    ∀ w : World, order.Nodup → (∀ c ∈ order, c ∈ mapKeys w.clients) →
      deliveries h msg (passEffects msg ok order w)
        = if h ∈ order ∧ ok h = true then 1 else 0 := by
  induction order with
  | nil => intro w _ _; simp [passEffects_nil, deliveries]
  | cons c rest ih =>
    intro w hnd hsub
    have hc : c ∈ mapKeys w.clients := hsub c (List.mem_cons_self _ _)
    have hnd2 := List.nodup_cons.mp hnd
    have hsub2 : ∀ c1 ∈ rest, c1 ∈ mapKeys (rangeBody msg (ok c) c w).clients := by
      intro c1 hc1
      rw [rangeBody_clients]
      have h1 := hsub c1 (List.mem_cons_of_mem _ hc1)
      split
      · exact h1
      · rw [mem_mapKeys_mapDelete]
        refine ⟨h1, ?_⟩
        rintro rfl
        exact hnd2.1 hc1
    have hrec := ih (rangeBody msg (ok c) c w) hnd2.2 hsub2
    rw [passEffects_cons]
    unfold deliveries at *
    rw [List.count_append, hrec, if_pos hc]
    by_cases hhc : h = c
    · subst hhc
      cases hok : ok h
      · by_cases hcl : h ∈ w.closed <;> simp [hcl, List.count_cons]
      · simp [hnd2.1]
    · have hne : ¬ c = h := fun e => hhc e.symm
      cases hok : ok c
      · by_cases hcl : c ∈ w.closed <;> simp [hcl, List.count_cons, hhc]
      · simp [List.count_cons, hhc, hne]

/-- Number of `WriteJSON` calls on `h` during a pass over distinct
registered keys. -/
theorem writeAttempts_passEffects (msg : Message) (ok : Conn → Bool) (h : Conn)
    (order : List Conn) :
    ∀ w : World, order.Nodup → (∀ c ∈ order, c ∈ mapKeys w.clients) →
      writeAttempts h (passEffects msg ok order w) = if h ∈ order then 1 else 0 := by
  induction order with
  | nil => intro w _ _; simp [passEffects_nil, writeAttempts]
  | cons c rest ih =>
    intro w hnd hsub
    have hc : c ∈ mapKeys w.clients := hsub c (List.mem_cons_self _ _)
    have hnd2 := List.nodup_cons.mp hnd
    have hsub2 : ∀ c1 ∈ rest, c1 ∈ mapKeys (rangeBody msg (ok c) c w).clients := by
      intro c1 hc1
      rw [rangeBody_clients]
      have h1 := hsub c1 (List.mem_cons_of_mem _ hc1)
      split
      · exact h1
      · rw [mem_mapKeys_mapDelete]
        refine ⟨h1, ?_⟩
        rintro rfl
        exact hnd2.1 hc1
    have hrec := ih (rangeBody msg (ok c) c w) hnd2.2 hsub2
    rw [passEffects_cons]
    unfold writeAttempts at *
    rw [List.countP_append, hrec, if_pos hc]
    by_cases hhc : h = c
    · subst hhc
      cases hok : ok h
      · by_cases hcl : h ∈ w.closed <;> simp [hcl, List.countP_cons, isWriteTo, hnd2.1]
      · simp [hnd2.1, isWriteTo]
    · have hne : ¬ c = h := fun e => hhc e.symm
      cases hok : ok c
      · by_cases hcl : c ∈ w.closed <;> simp [hcl, List.countP_cons, isWriteTo, hhc, hne]
      · simp [List.countP_cons, isWriteTo, hhc, hne]

/-- Every write of a pass carries the message of the pass and goes to a key
of the iteration. -/
theorem wrote_mem_passEffects (msg : Message) (ok : Conn → Bool) (h : Conn) (m : Message)
    (order : List Conn) :
    ∀ w : World, Event.wrote h m ∈ passEffects msg ok order w →
      m = msg ∧ h ∈ order ∧ h ∈ mapKeys w.clients ∧ ok h = true := by
  induction order with
  | nil => intro w hm; simp [passEffects_nil] at hm
  | cons c rest ih =>
    intro w hm
    rw [passEffects_cons, List.mem_append] at hm
    rcases hm with hm | hm
    · by_cases hc : c ∈ mapKeys w.clients
      · rw [if_pos hc] at hm
        cases hok : ok c
        · rw [hok] at hm
          by_cases hcl : c ∈ w.closed <;> simp [hcl] at hm
        · rw [hok] at hm
          simp at hm
          obtain ⟨rfl, rfl⟩ := hm
          exact ⟨rfl, List.mem_cons_self _ _, hc, hok⟩
      · rw [if_neg hc] at hm
        simp at hm
    · obtain ⟨h1, h2, h3, h4⟩ := ih _ hm
      refine ⟨h1, List.mem_cons_of_mem _ h2, ?_, h4⟩
      rw [rangeBody_clients] at h3
      split at h3
      · exact h3
      · exact ((mem_mapKeys_mapDelete _ _ _).mp h3).1

/-! ## The interleaved process -/

/-- Case analysis of an enabled step. -/
theorem step_some_cases {s s1 : Sys} {a : Action} (h : step s a = some s1) :
    s.exited = false ∧
    ((a = Action.request none
        ∧ s1 = { s with world := emit Event.fatal s.world, exited := true })
    ∨ (∃ ws, a = Action.request (some ws) ∧ s.readers ws = none
        ∧ s1 = { s with world := registerClient ws s.world,
                        readers := setReader s.readers ws Reader.reading })
    ∨ (∃ c m, a = Action.readOk c m ∧ s.readers c = some Reader.reading
        ∧ s1 = { s with world := emit (Event.read c m) s.world,
                        readers := setReader s.readers c (Reader.sending m) })
    ∨ (∃ c e, a = Action.readFail c e ∧ s.readers c = some Reader.reading
        ∧ s1 = { s with world := readFailure c e s.world,
                        readers := setReader s.readers c Reader.returned })
    ∨ (∃ c order m, a = Action.handoff c order ∧ s.readers c = some (Reader.sending m)
        ∧ s.hub = Hub.waiting ∧ order.Perm (mapKeys s.world.clients)
        ∧ s1 = { s with world := emit (Event.taken c m) s.world,
                        readers := setReader s.readers c Reader.reading,
                        hub := Hub.ranging m order })
    ∨ (∃ ok msg c rest, a = Action.visit ok ∧ s.hub = Hub.ranging msg (c :: rest)
        ∧ s1 = { s with world := rangeBody msg ok c s.world, hub := Hub.ranging msg rest })
    ∨ (∃ msg, a = Action.endPass ∧ s.hub = Hub.ranging msg []
        ∧ s1 = { s with hub := Hub.waiting })) := by
  unfold step at h
  split at h
  · exact absurd h (by simp)
  · rename_i hex
    refine ⟨by simpa using hex, ?_⟩
    cases a with
    | request up =>
      cases up with
      | none =>
        simp only [Action.inBroadcastLoop, handleConnectionsStep, Bool.false_eq_true,
          if_false, Option.some.injEq] at h
        exact Or.inl ⟨rfl, h.symm⟩
      | some ws =>
        simp only [Action.inBroadcastLoop, handleConnectionsStep, Bool.false_eq_true,
          if_false] at h
        split at h
        · exact absurd h (by simp)
        · rename_i hr
          simp only [Option.some.injEq] at h
          exact Or.inr (Or.inl ⟨ws, rfl, hr, h.symm⟩)
    | readOk c m =>
      simp only [Action.inBroadcastLoop, handleConnectionsStep, Bool.false_eq_true,
        if_false] at h
      split at h
      · rename_i hr
        simp only [Option.some.injEq] at h
        exact Or.inr (Or.inr (Or.inl ⟨c, m, rfl, hr, h.symm⟩))
      · exact absurd h (by simp)
    | readFail c e =>
      simp only [Action.inBroadcastLoop, handleConnectionsStep, Bool.false_eq_true,
        if_false] at h
      split at h
      · rename_i hr
        simp only [Option.some.injEq] at h
        exact Or.inr (Or.inr (Or.inr (Or.inl ⟨c, e, rfl, hr, h.symm⟩)))
      · exact absurd h (by simp)
    | handoff c order =>
      simp only [Action.inBroadcastLoop, handleMessagesStep, if_true] at h
      split at h
      · rename_i m hr hh
        split at h
        · rename_i hp
          simp only [Option.some.injEq] at h
          exact Or.inr (Or.inr (Or.inr (Or.inr (Or.inl
            ⟨c, order, m, rfl, hr, hh, List.isPerm_iff.mp hp, h.symm⟩))))
        · exact absurd h (by simp)
      · exact absurd h (by simp)
    | visit ok =>
      simp only [Action.inBroadcastLoop, handleMessagesStep, if_true] at h
      split at h
      · rename_i msg c rest hh
        simp only [Option.some.injEq] at h
        exact Or.inr (Or.inr (Or.inr (Or.inr (Or.inr (Or.inl
          ⟨ok, msg, c, rest, rfl, hh, h.symm⟩)))))
      · exact absurd h (by simp)
    | endPass =>
      simp only [Action.inBroadcastLoop, handleMessagesStep, if_true] at h
      split at h
      · rename_i msg hh
        simp only [Option.some.injEq] at h
        exact Or.inr (Or.inr (Or.inr (Or.inr (Or.inr (Or.inr ⟨msg, rfl, hh, h.symm⟩)))))
      · exact absurd h (by simp)

theorem run_append (as bs : List Action) :
    ∀ s : Sys, run s (as ++ bs) = (run s as).bind (fun s1 => run s1 bs) := by
  induction as with
  | nil => intro s; simp [run]
  | cons a rest ih =>
    intro s
    simp only [List.cons_append, run]
    cases step s a with
    | none => simp
    | some s1 => simpa using ih s1

/-- The visits of one pass, run without interleaving, compute `rangeClients`. -/
theorem run_visits (msg : Message) (ok : Conn → Bool) (order : List Conn) :
    ∀ s : Sys, s.exited = false → s.hub = Hub.ranging msg order →
      run s (order.map (fun c => Action.visit (ok c)))
        = some { s with world := rangeClients msg ok order s.world,
                        hub := Hub.ranging msg [] } := by
  induction order with
  | nil =>
    intro s _ hh
    simp only [List.map_nil, run, rangeClients, ← hh]
  | cons c rest ih =>
    intro s hex hh
    simp only [List.map_cons, run, step, hex, Action.inBroadcastLoop, handleMessagesStep, hh,
      Bool.false_eq_true, if_false, if_true]
    rw [ih { world := rangeBody msg (ok c) c s.world, readers := s.readers,
             hub := Hub.ranging msg rest, exited := false } rfl rfl]
    simp [rangeClients]

/-- With every write succeeding, a pass over registered keys writes the
message once per key, in iteration order, and does nothing else. -/
theorem passEffects_all_ok (msg : Message) (ok : Conn → Bool) (order : List Conn) :
    ∀ w : World, (∀ c ∈ order, c ∈ mapKeys w.clients) → (∀ c ∈ order, ok c = true) →
      passEffects msg ok order w = order.map (fun h => Event.wrote h msg) := by
  induction order with
  | nil => intro w _ _; simp [passEffects_nil]
  | cons c rest ih =>
    intro w hsub hok
    have hc := hsub c (List.mem_cons_self _ _)
    have hokc := hok c (List.mem_cons_self _ _)
    have hcl : (rangeBody msg (ok c) c w).clients = w.clients := by
      rw [rangeBody_clients, hokc]; rfl
    rw [passEffects_cons, if_pos hc,
      ih _ (fun c1 h1 => by rw [hcl]; exact hsub c1 (List.mem_cons_of_mem _ h1))
        (fun c1 h1 => hok c1 (List.mem_cons_of_mem _ h1)), hokc]
    simp

/-- A whole pass in the process: the handoff of `msg`, one visit per key,
and the return to the head of the loop. -/
theorem run_pass (msg : Message) (ok : Conn → Bool) (order : List Conn) (c : Conn) (s : Sys)
    (hex : s.exited = false) (hh : s.hub = Hub.waiting)
    (hr : s.readers c = some (Reader.sending msg))
    (hp : order.Perm (mapKeys s.world.clients)) :
    run s (Action.handoff c order
            :: (order.map (fun k => Action.visit (ok k)) ++ [Action.endPass]))
      = some { world := rangeClients msg ok order (emit (Event.taken c msg) s.world),
               readers := setReader s.readers c Reader.reading,
               hub := Hub.waiting,
               exited := false } := by
  have hp2 : order.isPerm (mapKeys s.world.clients) = true := List.isPerm_iff.mpr hp
  simp only [run, step, hex, Action.inBroadcastLoop, handleMessagesStep, hr, hh, hp2,
    Bool.false_eq_true, if_false, if_true]
  rw [run_append, run_visits msg ok order _ rfl rfl]
  simp [run, step, Action.inBroadcastLoop, handleMessagesStep]

/-- C1. When every `WriteJSON` of a broadcast pass succeeds, the pass writes
the message of the pass, unchanged, exactly once to every registered handle
(the sender's included) and to no other handle; the pass does nothing else. -/
theorem broadcast_reaches_every_client_once (msg : Message) (ok : Conn → Bool)
    (order : List Conn) (w : World)
    (hkeys : (mapKeys w.clients).Nodup)
    (horder : order.Perm (mapKeys w.clients))
    (hok : ∀ h ∈ mapKeys w.clients, ok h = true) :
    (rangeClients msg ok order w).trace = w.trace ++ passEffects msg ok order w
    ∧ passEffects msg ok order w = order.map (fun h => Event.wrote h msg)
    ∧ (∀ h ∈ mapKeys w.clients,
        deliveries h msg (passEffects msg ok order w) = 1
        ∧ writeAttempts h (passEffects msg ok order w) = 1)
    ∧ (∀ h, h ∉ mapKeys w.clients → writeAttempts h (passEffects msg ok order w) = 0)
    ∧ (∀ h m, Event.wrote h m ∈ passEffects msg ok order w →
        m.Email = msg.Email ∧ m.Username = msg.Username ∧ m.Message = msg.Message)
    ∧ (rangeClients msg ok order w).clients = w.clients
    ∧ (rangeClients msg ok order w).closed = w.closed
    ∧ (∀ (s : Sys) (c : Conn), s.world = w → s.exited = false → s.hub = Hub.waiting →
        s.readers c = some (Reader.sending msg) →
        ∃ s1, run s (Action.handoff c order
                  :: (order.map (fun k => Action.visit (ok k)) ++ [Action.endPass])) = some s1
          ∧ s1.world.trace
              = w.trace ++ Event.taken c msg :: order.map (fun h => Event.wrote h msg)
          ∧ s1.world.clients = w.clients
          ∧ s1.hub = Hub.waiting) := by
  have hnd : order.Nodup := horder.nodup_iff.mpr hkeys
  have hsub : ∀ c ∈ order, c ∈ mapKeys w.clients := fun c hc => horder.mem_iff.mp hc
  have hall : ∀ c ∈ order, ok c = true := fun c hc => hok c (hsub c hc)
  have hcl : ∀ (l : List Conn) (v : World), (∀ c ∈ l, ok c = true) →
      (rangeClients msg ok l v).closed = v.closed := by
    intro l
    induction l with
    | nil => intro v _; rfl
    | cons c rest ih =>
      intro v hv
      rw [rangeClients, ih _ (fun c1 h1 => hv c1 (List.mem_cons_of_mem _ h1))]
      unfold rangeBody visitClient
      rw [hv c (List.mem_cons_self _ _)]
      split <;> rfl
  have hsame : ∀ v : World, v.clients = w.clients →
      (rangeClients msg ok order v).clients = v.clients := by
    intro v hv
    rw [rangeClients_clients, List.filter_eq_self]
    intro e he
    rw [hv] at he
    have : ok e.1 = true := hok e.1 (List.mem_map.mpr ⟨e, he, rfl⟩)
    simp [this]
  refine ⟨trace_eq_append_passEffects msg ok order w,
    passEffects_all_ok msg ok order w hsub hall, ?_, ?_, ?_, hsame w rfl, hcl order w hall, ?_⟩
  · intro h hh
    have hmem : h ∈ order := horder.mem_iff.mpr hh
    rw [deliveries_passEffects msg ok h order w hnd hsub,
      writeAttempts_passEffects msg ok h order w hnd hsub]
    simp [hmem, hok h hh]
  · intro h hh
    have hmem : h ∉ order := fun hm => hh (hsub h hm)
    rw [writeAttempts_passEffects msg ok h order w hnd hsub]
    simp [hmem]
  · intro h m hm
    obtain ⟨rfl, _⟩ := wrote_mem_passEffects msg ok h m order w hm
    exact ⟨rfl, rfl, rfl⟩
  · intro s c hw hex hh hr
    subst hw
    refine ⟨_, run_pass msg ok order c s hex hh hr horder, ?_, hsame _ rfl, rfl⟩
    show (rangeClients msg ok order (emit (Event.taken c msg) s.world)).trace = _
    rw [trace_eq_append_passEffects,
      passEffects_all_ok msg ok order (emit (Event.taken c msg) s.world)
        (fun k hk => hsub k hk) hall]
    simp

/-- Worked instance of C1: three registered clients, the runtime iterates
them in the order 3, 1, 2, every write succeeds. -/
theorem broadcast_reaches_every_client_once_witness :
    (rangeClients hello (fun _ => true) [3, 1, 2]
        { clients := [(1, true), (2, true), (3, true)], closed := [], trace := [] }).trace
      = [] ++ passEffects hello (fun _ => true) [3, 1, 2]
          { clients := [(1, true), (2, true), (3, true)], closed := [], trace := [] }
    ∧ passEffects hello (fun _ => true) [3, 1, 2]
          { clients := [(1, true), (2, true), (3, true)], closed := [], trace := [] }
        = [Event.wrote 3 hello, Event.wrote 1 hello, Event.wrote 2 hello] :=
  let h := broadcast_reaches_every_client_once hello (fun _ => true) [3, 1, 2]
    { clients := [(1, true), (2, true), (3, true)], closed := [], trace := [] }
    (by decide) (by decide) (by intro h _; rfl)
  ⟨h.1, h.2.1⟩

/-- Outcome of a broadcast pass with which no other goroutine interleaves,
for every assignment of success and failure to the writes: each registered
handle whose write succeeds gets the message exactly once and stays
registered, the registry after the pass is the registry before minus the
handles whose write failed, and the visits followed by the end of the pass
bring the loop back to the channel receive.  The statement is about the
loop alone: `server.go` lets the handlers write the same map while the pass
runs, which this lemma leaves out. -/
theorem uninterrupted_pass_outcome (msg : Message) (ok : Conn → Bool)
    (order : List Conn) (w : World)
    (hkeys : (mapKeys w.clients).Nodup)
    (horder : order.Perm (mapKeys w.clients)) :
    (∀ h ∈ mapKeys w.clients, ok h = true →
        deliveries h msg (passEffects msg ok order w) = 1
        ∧ writeAttempts h (passEffects msg ok order w) = 1
        ∧ h ∈ mapKeys (rangeClients msg ok order w).clients)
    ∧ (rangeClients msg ok order w).clients = w.clients.filter (fun e => ok e.1)
    ∧ (∀ h, h ∈ mapKeys (rangeClients msg ok order w).clients
        ↔ h ∈ mapKeys w.clients ∧ ok h = true)
    ∧ (∀ s : Sys, s.world = w → s.exited = false → s.hub = Hub.ranging msg order →
        run s (order.map (fun k => Action.visit (ok k)) ++ [Action.endPass])
          = some { s with world := rangeClients msg ok order w, hub := Hub.waiting }) := by
  have hnd : order.Nodup := horder.nodup_iff.mpr hkeys
  have hsub : ∀ c ∈ order, c ∈ mapKeys w.clients := fun c hc => horder.mem_iff.mp hc
  have hcl : (rangeClients msg ok order w).clients = w.clients.filter (fun e => ok e.1) := by
    rw [rangeClients_clients]
    apply List.filter_congr
    intro e he
    have : e.1 ∈ order := horder.mem_iff.mpr (List.mem_map.mpr ⟨e, he, rfl⟩)
    simp [this]
  have hmem : ∀ h, h ∈ mapKeys (rangeClients msg ok order w).clients
      ↔ h ∈ mapKeys w.clients ∧ ok h = true := by
    intro h
    rw [hcl]
    unfold mapKeys
    simp only [List.mem_map, List.mem_filter]
    constructor
    · rintro ⟨e, ⟨he, hoke⟩, rfl⟩
      exact ⟨⟨e, he, rfl⟩, hoke⟩
    · rintro ⟨⟨e, he, rfl⟩, hoke⟩
      exact ⟨e, ⟨he, hoke⟩, rfl⟩
  refine ⟨?_, hcl, hmem, ?_⟩
  · intro h hh hokh
    have hmo : h ∈ order := horder.mem_iff.mpr hh
    rw [deliveries_passEffects msg ok h order w hnd hsub,
      writeAttempts_passEffects msg ok h order w hnd hsub]
    exact ⟨by simp [hmo, hokh], by simp [hmo], (hmem h).mpr ⟨hh, hokh⟩⟩
  · intro s hw hex hh
    rw [run_append, run_visits msg ok order s hex hh]
    simp [run, step, hex, Action.inBroadcastLoop, handleMessagesStep, hw]

/-- Worked instance of the uninterrupted pass: clients 1, 2, 3 are
registered, the write to 2 fails; 1 and 3 get the message once and stay, 2
is removed. -/
theorem uninterrupted_pass_outcome_example :
    (deliveries 1 hello (passEffects hello (fun c => decide (c ≠ 2)) [3, 1, 2]
        { clients := [(1, true), (2, true), (3, true)], closed := [], trace := [] }) = 1
      ∧ deliveries 3 hello (passEffects hello (fun c => decide (c ≠ 2)) [3, 1, 2]
        { clients := [(1, true), (2, true), (3, true)], closed := [], trace := [] }) = 1)
    ∧ (rangeClients hello (fun c => decide (c ≠ 2)) [3, 1, 2]
        { clients := [(1, true), (2, true), (3, true)], closed := [], trace := [] }).clients
        = [(1, true), (3, true)] :=
  let h := uninterrupted_pass_outcome hello (fun c => decide (c ≠ 2)) [3, 1, 2]
    { clients := [(1, true), (2, true), (3, true)], closed := [], trace := [] }
    (by decide) (by decide)
  ⟨⟨(h.1 1 (by decide) (by decide)).1, (h.1 3 (by decide) (by decide)).1⟩, h.2.1⟩

/-- C8. A broadcast pass over an empty registry does nothing: no write, no
close, no log line, the registry stays empty; in the process the loop takes
the message and is back at the channel receive, ready for the next one. -/
theorem broadcast_over_empty_registry (msg : Message) (ok : Conn → Bool) (w : World)
    (hempty : w.clients = []) :
    (∀ order : List Conn, rangeClients msg ok order w = w
        ∧ passEffects msg ok order w = [])
    ∧ (∀ (s : Sys) (c : Conn), s.world = w → s.exited = false → s.hub = Hub.waiting →
        s.readers c = some (Reader.sending msg) →
        run s [Action.handoff c [], Action.endPass]
          = some { world := emit (Event.taken c msg) w,
                   readers := setReader s.readers c Reader.reading,
                   hub := Hub.waiting,
                   exited := false }) := by
  have hid : ∀ order : List Conn, rangeClients msg ok order w = w := by
    intro order
    induction order with
    | nil => rfl
    | cons c rest ih =>
      rw [rangeClients]
      have : rangeBody msg (ok c) c w = w := by
        unfold rangeBody
        rw [hempty]
        simp [mapKeys]
      rw [this, ih]
  refine ⟨fun order => ⟨hid order, ?_⟩, ?_⟩
  · unfold passEffects
    rw [hid order]
    simp
  · intro s c hw hex hh hr
    have hp : ([] : List Conn).Perm (mapKeys s.world.clients) := by
      rw [hw, hempty]; exact List.Perm.refl _
    have h := run_pass msg ok [] c s hex hh hr hp
    simpa [rangeClients, hw] using h

/-- Worked instance of C8: the very first message of a process without any
registered client. -/
theorem broadcast_over_empty_registry_witness :
    rangeClients hello (fun _ => false) [] { clients := [], closed := [], trace := [] }
      = { clients := [], closed := [], trace := [] } :=
  ((broadcast_over_empty_registry hello (fun _ => false)
    { clients := [], closed := [], trace := [] } rfl).1 []).1

/-- C7. Unregistering twice is unregistering once, closing twice is closing
once, and the reader's failure path run after the broadcast loop's failure
path on the same handle leaves the registry and the set of closed
connections as they were and releases nothing a second time. -/
theorem unregister_and_close_idempotent (w : World) (h : Conn) (msg : Message)
    (e : ReadError) :
    mapDelete (mapDelete w.clients h) h = mapDelete w.clients h
    ∧ connClose h (connClose h w) = connClose h w
    ∧ (readFailure h e (visitClient msg false h w)).clients
        = (visitClient msg false h w).clients
    ∧ (readFailure h e (visitClient msg false h w)).closed
        = (visitClient msg false h w).closed
    ∧ (readFailure h e (visitClient msg false h w)).trace
        = (visitClient msg false h w).trace
            ++ [Event.readErr h e, Event.logged, Event.deleted h]
    ∧ (readFailure h e (visitClient msg false h w)).trace.count (Event.released h)
        = (visitClient msg false h w).trace.count (Event.released h)
    ∧ (visitClient msg false h w).trace.count (Event.released h)
        = w.trace.count (Event.released h) + (if h ∈ w.closed then 0 else 1) := by
  have hdel : ∀ m : List (Conn × Bool), mapDelete (mapDelete m h) h = mapDelete m h := by
    intro m
    unfold mapDelete
    rw [List.filter_filter]
    simp
  have hclosed : h ∈ (visitClient msg false h w).closed :=
    (mem_visitClient_closed msg false h h w).mpr (Or.inl ⟨rfl, rfl⟩)
  have hcc : ∀ v : World, h ∈ v.closed → connClose h v = v := by
    intro v hv
    unfold connClose
    rw [if_pos hv]
  have hrf : readFailure h e (visitClient msg false h w)
      = deleteClient h (emit Event.logged (emit (Event.readErr h e)
          (visitClient msg false h w))) := by
    unfold readFailure
    exact hcc _ (by simpa using hclosed)
  refine ⟨hdel _, ?_, ?_, ?_, ?_, ?_, ?_⟩
  · exact hcc _ ((mem_connClose_closed h h w).mpr (Or.inl rfl))
  · rw [hrf]
    simp only [deleteClient_clients, emit_clients]
    rw [visitClient_clients]
    simp [hdel]
  · rw [hrf]; rfl
  · rw [hrf]; simp
  · rw [hrf]; simp [List.count_append, List.count_cons]
  · rw [visitClient_trace]
    by_cases hcl : h ∈ w.closed <;> simp [hcl, List.count_append, List.count_cons]

/-! ## Invariants of the interleaved process -/

theorem readFailure_clients (c : Conn) (e : ReadError) (w : World) :
    (readFailure c e w).clients = mapDelete w.clients c := by
  unfold readFailure
  simp

theorem readFailure_trace (c : Conn) (e : ReadError) (w : World) :
    (readFailure c e w).trace
      = w.trace ++ ([Event.readErr c e, Event.logged, Event.deleted c]
          ++ (if c ∈ w.closed then [] else [Event.released c])) := by
  unfold readFailure
  rw [connClose_trace]
  simp

theorem mem_readFailure_closed (c x : Conn) (e : ReadError) (w : World) :
    x ∈ (readFailure c e w).closed ↔ x = c ∨ x ∈ w.closed := by
  unfold readFailure
  rw [mem_connClose_closed]
  simp

theorem mem_rangeBody_keys (msg : Message) (ok : Bool) (c x : Conn) (w : World) :
    x ∈ mapKeys (rangeBody msg ok c w).clients
      ↔ x ∈ mapKeys w.clients ∧ (ok = true ∨ x ≠ c) := by
  rw [rangeBody_clients]
  cases ok
  · simp [mem_mapKeys_mapDelete]
  · simp

theorem setReader_ne_none (f : Conn → Option Reader) (c x : Conn) (r : Reader)
    (h : f x ≠ none) : setReader f c r x ≠ none := by
  unfold setReader
  split
  · simp
  · exact h

/-- A property kept by every step holds along every run. -/
theorem run_invariant (P : Sys → Prop)
    (hstep : ∀ s a s1, P s → step s a = some s1 → P s1) :
    ∀ (as : List Action) (s s1 : Sys), P s → run s as = some s1 → P s1 := by
  intro as
  induction as with
  | nil =>
    intro s s1 hP h
    simp only [run, Option.some.injEq] at h
    exact h ▸ hP
  | cons a rest ih =>
    intro s s1 hP h
    simp only [run] at h
    cases hs : step s a with
    | none => rw [hs] at h; exact absurd h (by simp)
    | some s2 =>
      rw [hs] at h
      exact ih s2 s1 (hstep s a s2 hP hs) h

/-- Once `Upgrade` has produced a connection, its handler exists for good. -/
theorem step_known {s s1 : Sys} {a : Action} (h : Conn) (hs : step s a = some s1)
    (hk : s.readers h ≠ none) : s1.readers h ≠ none := by
  obtain ⟨_, hc⟩ := step_some_cases hs
  rcases hc with ⟨_, rfl⟩ | ⟨ws, _, _, rfl⟩ | ⟨c, m, _, _, rfl⟩ | ⟨c, e, _, _, rfl⟩
    | ⟨c, order, m, _, _, _, _, rfl⟩ | ⟨ok, msg, c, rest, _, _, rfl⟩ | ⟨msg, _, _, rfl⟩
  all_goals first
    | exact hk
    | exact setReader_ne_none _ _ _ _ hk

/-- A known connection that is not registered is never registered again:
registration happens once, right after `Upgrade` produced the connection. -/
theorem step_absent {s s1 : Sys} {a : Action} (h : Conn) (hs : step s a = some s1)
    (hk : s.readers h ≠ none) (hab : h ∉ mapKeys s.world.clients) :
    h ∉ mapKeys s1.world.clients := by
  obtain ⟨_, hc⟩ := step_some_cases hs
  rcases hc with ⟨_, rfl⟩ | ⟨ws, _, hr, rfl⟩ | ⟨c, m, _, _, rfl⟩ | ⟨c, e, _, _, rfl⟩
    | ⟨c, order, m, _, _, _, _, rfl⟩ | ⟨ok, msg, c, rest, _, _, rfl⟩ | ⟨msg, _, _, rfl⟩
  · exact hab
  · simp only [registerClient_clients, mem_mapKeys_mapSet]
    rintro (h1 | rfl)
    · exact hab h1
    · exact hk hr
  · exact hab
  · simp only [readFailure_clients, mem_mapKeys_mapDelete]
    exact fun h1 => hab h1.1
  · exact hab
  · simp only [mem_rangeBody_keys]
    exact fun h1 => hab h1.1
  · exact hab

/-- A handle that is not registered is not written to. -/
theorem step_attempts {s s1 : Sys} {a : Action} (h : Conn) (hs : step s a = some s1)
    (hab : h ∉ mapKeys s.world.clients) :
    writeAttempts h s1.world.trace = writeAttempts h s.world.trace := by
  obtain ⟨_, hc⟩ := step_some_cases hs
  rcases hc with ⟨_, rfl⟩ | ⟨ws, _, hr, rfl⟩ | ⟨c, m, _, _, rfl⟩ | ⟨c, e, _, _, rfl⟩
    | ⟨c, order, m, _, _, _, _, rfl⟩ | ⟨ok, msg, c, rest, _, _, rfl⟩ | ⟨msg, _, _, rfl⟩
  · simp [writeAttempts, isWriteTo]
  · simp [writeAttempts, isWriteTo]
  · simp [writeAttempts, isWriteTo]
  · simp only [readFailure_trace, writeAttempts]
    by_cases hcl : c ∈ s.world.closed <;> simp [hcl, isWriteTo, List.countP_cons]
  · simp [writeAttempts, isWriteTo]
  · simp only [rangeBody_trace, writeAttempts]
    by_cases hck : c ∈ mapKeys s.world.clients
    · have hne : ¬ c = h := fun e => hab (e ▸ hck)
      cases ok
      · by_cases hcl : c ∈ s.world.closed <;>
          simp [hck, hcl, isWriteTo, List.countP_cons, hne]
      · simp [hck, isWriteTo, List.countP_cons, hne]
    · simp [hck]
  · rfl

/-- A released transport stays released. -/
theorem step_closed {s s1 : Sys} {a : Action} (h : Conn) (hs : step s a = some s1)
    (hcl : h ∈ s.world.closed) : h ∈ s1.world.closed := by
  obtain ⟨_, hc⟩ := step_some_cases hs
  rcases hc with ⟨_, rfl⟩ | ⟨ws, _, hr, rfl⟩ | ⟨c, m, _, _, rfl⟩ | ⟨c, e, _, _, rfl⟩
    | ⟨c, order, m, _, _, _, _, rfl⟩ | ⟨ok, msg, c, rest, _, _, rfl⟩ | ⟨msg, _, _, rfl⟩
  · exact hcl
  · exact hcl
  · exact hcl
  · exact (mem_readFailure_closed _ _ _ _).mpr (Or.inr hcl)
  · exact hcl
  · exact (mem_rangeBody_closed _ _ _ _ _).mpr (Or.inl hcl)
  · exact hcl

/-- After a known handle has left the registry, no run of the process
registers it again or writes to it. -/
theorem run_dropped (h : Conn) (as : List Action) (s s1 : Sys)
    (hk : s.readers h ≠ none) (hab : h ∉ mapKeys s.world.clients)
    (hr : run s as = some s1) :
    h ∉ mapKeys s1.world.clients
    ∧ writeAttempts h s1.world.trace = writeAttempts h s.world.trace := by
  have key := run_invariant
    (fun t => t.readers h ≠ none ∧ h ∉ mapKeys t.world.clients
      ∧ writeAttempts h t.world.trace = writeAttempts h s.world.trace)
    (fun t a t1 hP hs =>
      ⟨step_known h hs hP.1, step_absent h hs hP.1 hP.2.1,
        (step_attempts h hs hP.2.1).trans hP.2.2⟩)
    as s s1 ⟨hk, hab, rfl⟩ hr
  exact ⟨key.2.1, key.2.2⟩

theorem run_closed (h : Conn) (as : List Action) (s s1 : Sys)
    (hcl : h ∈ s.world.closed) (hr : run s as = some s1) : h ∈ s1.world.closed :=
  run_invariant (fun t => h ∈ t.world.closed) (fun _ _ _ hP hs => step_closed h hs hP)
    as s s1 hcl hr

/-- Every registered handle has a handler goroutine. -/
theorem step_keys_known {s s1 : Sys} {a : Action} (hs : step s a = some s1)
    (hinv : ∀ h ∈ mapKeys s.world.clients, s.readers h ≠ none) :
    ∀ h ∈ mapKeys s1.world.clients, s1.readers h ≠ none := by
  intro h hh
  by_cases hk : s.readers h ≠ none
  · exact step_known h hs hk
  · have hab : h ∉ mapKeys s.world.clients := fun hm => hk (hinv h hm)
    obtain ⟨_, hc⟩ := step_some_cases hs
    rcases hc with ⟨_, rfl⟩ | ⟨ws, _, hr, rfl⟩ | ⟨c, m, _, _, rfl⟩ | ⟨c, e, _, _, rfl⟩
      | ⟨c, order, m, _, _, _, _, rfl⟩ | ⟨ok, msg, c, rest, _, _, rfl⟩ | ⟨msg, _, _, rfl⟩
    · exact absurd hh hab
    · simp only [registerClient_clients, mem_mapKeys_mapSet] at hh
      rcases hh with h1 | rfl
      · exact absurd h1 hab
      · simp [setReader]
    · exact absurd hh hab
    · simp only [readFailure_clients, mem_mapKeys_mapDelete] at hh
      exact absurd hh.1 hab
    · exact absurd hh hab
    · simp only [mem_rangeBody_keys] at hh
      exact absurd hh.1 hab
    · exact absurd hh hab

theorem reach_keys_known (as : List Action) (s : Sys) (hr : run init as = some s) :
    ∀ h ∈ mapKeys s.world.clients, s.readers h ≠ none :=
  run_invariant (fun t => ∀ h ∈ mapKeys t.world.clients, t.readers h ≠ none)
    (fun _ _ _ hP hs => step_keys_known hs hP) as init s
    (by intro h hh; simp [init, mapKeys] at hh) hr

/-- C2. In every reachable state of the running process in which the
broadcast loop is about to write to a registered handle, when that
`WriteJSON` fails the handle is closed and removed from the registry at
once, and in every later state of the process (the end of the same pass,
every later pass) it is still closed, still absent from the registry, and
has not been written to again.  For a pass that runs uninterrupted, every
registered handle whose write fails is closed and absent at the end of the
pass. -/
theorem failed_client_is_dropped (as : List Action) (s : Sys) (msg : Message) (hi : Conn)
    (rest : List Conn)
    (hreach : run init as = some s)
    (hex : s.exited = false)
    (hhub : s.hub = Hub.ranging msg (hi :: rest))
    (hreg : hi ∈ mapKeys s.world.clients) :
    (∃ s1, step s (Action.visit false) = some s1
      ∧ s1.hub = Hub.ranging msg rest
      ∧ Event.writeErr hi msg ∈ s1.world.trace
      ∧ ∀ bs s2, run s1 bs = some s2 →
          hi ∈ s2.world.closed
          ∧ hi ∉ mapKeys s2.world.clients
          ∧ writeAttempts hi s2.world.trace = writeAttempts hi s1.world.trace)
    ∧ (∀ (m : Message) (ok : Conn → Bool) (order : List Conn) (w : World) (h : Conn),
        order.Perm (mapKeys w.clients) → h ∈ mapKeys w.clients → ok h = false →
          h ∈ (rangeClients m ok order w).closed
          ∧ h ∉ mapKeys (rangeClients m ok order w).clients) := by
  refine ⟨?_, ?_⟩
  · have hs : step s (Action.visit false)
        = some { s with world := rangeBody msg false hi s.world, hub := Hub.ranging msg rest } := by
      simp [step, hex, Action.inBroadcastLoop, handleMessagesStep, hhub]
    refine ⟨_, hs, rfl, ?_, ?_⟩
    · simp [rangeBody_trace, hreg]
    · intro bs s2 hrun
      have hknown : s.readers hi ≠ none := reach_keys_known as s hreach hi hreg
      have hcl : hi ∈ (rangeBody msg false hi s.world).closed :=
        (mem_rangeBody_closed msg false hi hi s.world).mpr (Or.inr ⟨rfl, hreg, rfl⟩)
      have hab : hi ∉ mapKeys (rangeBody msg false hi s.world).clients := by
        rw [mem_rangeBody_keys]
        simp
      have hd := run_dropped hi bs _ s2 (step_known hi hs hknown) hab hrun
      exact ⟨run_closed hi bs _ s2 hcl hrun, hd.1, hd.2⟩
  · intro m ok order w h hperm hh hf
    refine ⟨(mem_rangeClients_closed m ok order h w).mpr
      (Or.inr ⟨hperm.mem_iff.mpr hh, hh, hf⟩), ?_⟩
    rw [rangeClients_clients]
    unfold mapKeys
    simp only [List.mem_map, List.mem_filter, not_exists, not_and]
    rintro e ⟨_, he⟩ rfl
    have : e.1 ∈ order := hperm.mem_iff.mpr hh
    simp [this, hf] at he

/-- Worked instance of C2, the scenario of the specification: A, B and C are
registered, the transport of B is closed, the second pass has written to A
and now fails on B.  B is dropped, and the pass ends with A and C registered
and with one write of the second message to each of them. -/
theorem failed_client_is_dropped_witness :
    (∃ s, run init scenario = some s
      ∧ ∃ s1, step s (Action.visit false) = some s1
        ∧ ∀ bs s2, run s1 bs = some s2 →
            1 ∈ s2.world.closed
            ∧ 1 ∉ mapKeys s2.world.clients
            ∧ writeAttempts 1 s2.world.trace = writeAttempts 1 s1.world.trace)
    ∧ (run init (scenario ++ [Action.visit false, Action.visit true, Action.endPass])).map
        (fun t => (t.world.clients, t.world.closed,
          deliveries 0 again t.world.trace, deliveries 1 again t.world.trace,
          deliveries 2 again t.world.trace))
        = some ([(0, true), (2, true)], [1], 1, 0, 1) := by
  refine ⟨?_, by decide⟩
  have hsome : (run init scenario).isSome = true := by decide
  obtain ⟨s, hs⟩ := Option.isSome_iff_exists.mp hsome
  have hex : (run init scenario).map (fun t => t.exited) = some false := by decide
  have hhub : (run init scenario).map (fun t => t.hub) = some (Hub.ranging again [1, 2]) := by
    decide
  have hreg : (run init scenario).map (fun t => decide (1 ∈ mapKeys t.world.clients))
      = some true := by decide
  rw [hs] at hex hhub hreg
  simp only [Option.map_some', Option.some.injEq, decide_eq_true_eq] at hex hhub hreg
  obtain ⟨s1, h1, _, _, h2⟩ :=
    (failed_client_is_dropped scenario s again 1 [2] hs hex hhub hreg).1
  exact ⟨s, hs, s1, h1, h2⟩

/-- Bookkeeping of registrations and removals: a handle that was registered
is in the registry unless it was deleted, and a deleted handle is a known
connection that is not in the registry. -/
theorem step_history {s s1 : Sys} {a : Action} (hs : step s a = some s1)
    (hK : ∀ h ∈ mapKeys s.world.clients, s.readers h ≠ none)
    (hH : ∀ h, (Event.registered h ∈ s.world.trace →
            Event.deleted h ∈ s.world.trace ∨ h ∈ mapKeys s.world.clients)
          ∧ (Event.deleted h ∈ s.world.trace →
            s.readers h ≠ none ∧ h ∉ mapKeys s.world.clients)) :
    ∀ h, (Event.registered h ∈ s1.world.trace →
            Event.deleted h ∈ s1.world.trace ∨ h ∈ mapKeys s1.world.clients)
          ∧ (Event.deleted h ∈ s1.world.trace →
            s1.readers h ≠ none ∧ h ∉ mapKeys s1.world.clients) := by
  intro h
  have hold := hH h
  obtain ⟨_, hc⟩ := step_some_cases hs
  rcases hc with ⟨_, rfl⟩ | ⟨ws, _, hr, rfl⟩ | ⟨c, m, _, hr, rfl⟩ | ⟨c, e, _, hr, rfl⟩
    | ⟨c, order, m, _, hr, _, _, rfl⟩ | ⟨ok, msg, c, rest, _, _, rfl⟩ | ⟨msg, _, _, rfl⟩
  · simpa using hold
  · simp only [registerClient_trace, registerClient_clients, List.mem_append,
      List.mem_singleton, Event.registered.injEq, mem_mapKeys_mapSet, reduceCtorEq, or_false]
    constructor
    · rintro (h1 | rfl)
      · rcases hold.1 h1 with h2 | h2
        · exact Or.inl h2
        · exact Or.inr (Or.inl h2)
      · exact Or.inr (Or.inr rfl)
    · intro h1
      obtain ⟨h2, h3⟩ := hold.2 h1
      refine ⟨setReader_ne_none _ _ _ _ h2, ?_⟩
      rintro (h4 | rfl)
      · exact h3 h4
      · exact h2 hr
  · simp only [emit_trace, emit_clients, List.mem_append, List.mem_singleton, reduceCtorEq,
      or_false]
    exact ⟨hold.1, fun h1 => ⟨setReader_ne_none _ _ _ _ (hold.2 h1).1, (hold.2 h1).2⟩⟩
  · have htr : ∀ x : Conn, Event.deleted x ∈ (readFailure c e s.world).trace
        ↔ Event.deleted x ∈ s.world.trace ∨ x = c := by
      intro x
      rw [readFailure_trace]
      by_cases hcl : c ∈ s.world.closed <;> simp [hcl]
    have hrg : Event.registered h ∈ (readFailure c e s.world).trace
        ↔ Event.registered h ∈ s.world.trace := by
      rw [readFailure_trace]
      by_cases hcl : c ∈ s.world.closed <;> simp [hcl]
    simp only [htr, hrg, readFailure_clients, mem_mapKeys_mapDelete]
    constructor
    · intro h1
      by_cases hhc : h = c
      · exact Or.inl (Or.inr hhc)
      · rcases hold.1 h1 with h2 | h2
        · exact Or.inl (Or.inl h2)
        · exact Or.inr ⟨h2, hhc⟩
    · rintro (h1 | rfl)
      · exact ⟨setReader_ne_none _ _ _ _ (hold.2 h1).1, fun h2 => (hold.2 h1).2 h2.1⟩
      · exact ⟨by simp [setReader], fun h2 => h2.2 rfl⟩
  · simp only [emit_trace, emit_clients, List.mem_append, List.mem_singleton, reduceCtorEq,
      or_false]
    exact ⟨hold.1, fun h1 => ⟨setReader_ne_none _ _ _ _ (hold.2 h1).1, (hold.2 h1).2⟩⟩
  · have htr : ∀ x : Conn, Event.deleted x ∈ (rangeBody msg ok c s.world).trace
        ↔ Event.deleted x ∈ s.world.trace
          ∨ (x = c ∧ c ∈ mapKeys s.world.clients ∧ ok = false) := by
      intro x
      rw [rangeBody_trace]
      by_cases hck : c ∈ mapKeys s.world.clients
      · cases ok
        · by_cases hcl : c ∈ s.world.closed <;> simp [hck, hcl]
        · simp [hck]
      · simp [hck]
    have hrg : Event.registered h ∈ (rangeBody msg ok c s.world).trace
        ↔ Event.registered h ∈ s.world.trace := by
      rw [rangeBody_trace]
      by_cases hck : c ∈ mapKeys s.world.clients
      · cases ok
        · by_cases hcl : c ∈ s.world.closed <;> simp [hck, hcl]
        · simp [hck]
      · simp [hck]
    simp only [htr, hrg, mem_rangeBody_keys]
    constructor
    · intro h1
      rcases hold.1 h1 with h2 | h2
      · exact Or.inl (Or.inl h2)
      · by_cases hhc : h = c
        · cases ok
          · exact Or.inl (Or.inr ⟨hhc, hhc ▸ h2, rfl⟩)
          · exact Or.inr ⟨h2, Or.inl rfl⟩
        · exact Or.inr ⟨h2, Or.inr hhc⟩
    · rintro (h1 | ⟨rfl, h2, rfl⟩)
      · exact ⟨(hold.2 h1).1, fun h2 => (hold.2 h1).2 h2.1⟩
      · exact ⟨hK h h2, fun h3 => by simpa using h3.2⟩
  · exact hold

/-- The bookkeeping holds in every reachable state. -/
theorem reach_history (as : List Action) (s : Sys) (hr : run init as = some s) :
    ∀ h, (Event.registered h ∈ s.world.trace →
            Event.deleted h ∈ s.world.trace ∨ h ∈ mapKeys s.world.clients)
          ∧ (Event.deleted h ∈ s.world.trace →
            s.readers h ≠ none ∧ h ∉ mapKeys s.world.clients) := by
  have key := run_invariant
    (fun t => (∀ h ∈ mapKeys t.world.clients, t.readers h ≠ none)
      ∧ ∀ h, (Event.registered h ∈ t.world.trace →
            Event.deleted h ∈ t.world.trace ∨ h ∈ mapKeys t.world.clients)
          ∧ (Event.deleted h ∈ t.world.trace →
            t.readers h ≠ none ∧ h ∉ mapKeys t.world.clients))
    (fun t a t1 hP hs => ⟨step_keys_known hs hP.1, step_history hs hP.1 hP.2⟩)
    as init s ⟨by intro h hh; simp [init, mapKeys] at hh, by intro h; simp [init]⟩ hr
  exact key.2

/-- C4. Registration invariant, in every reachable state of the process:
a handle that `handleConnections` registered and that has not been deleted
is in the registry, hence in the key set of every pass that starts now, and
it is written to when the iteration reaches it; a handle that has been
deleted (on a read failure or on a send failure) is out of the registry for
good and no later pass visits it. -/
theorem registration_invariant (as : List Action) (s : Sys) (h : Conn)
    (hreach : run init as = some s) :
    (Event.registered h ∈ s.world.trace → Event.deleted h ∉ s.world.trace →
        h ∈ mapKeys s.world.clients
        ∧ (∀ c order s1, step s (Action.handoff c order) = some s1 →
            ∃ m, s1.hub = Hub.ranging m order ∧ h ∈ order)
        ∧ (∀ ok msg rest s1, s.hub = Hub.ranging msg (h :: rest) →
            step s (Action.visit ok) = some s1 →
            writeAttempts h s1.world.trace = writeAttempts h s.world.trace + 1))
    ∧ (Event.deleted h ∈ s.world.trace →
        h ∉ mapKeys s.world.clients
        ∧ ∀ bs s2, run s bs = some s2 →
            h ∉ mapKeys s2.world.clients
            ∧ writeAttempts h s2.world.trace = writeAttempts h s.world.trace) := by
  have hist := reach_history as s hreach h
  constructor
  · intro hreg hnd
    have hmem : h ∈ mapKeys s.world.clients := by
      rcases hist.1 hreg with h1 | h1
      · exact absurd h1 hnd
      · exact h1
    refine ⟨hmem, ?_, ?_⟩
    · intro c order s1 hs
      obtain ⟨_, hc⟩ := step_some_cases hs
      rcases hc with ⟨ha, _⟩ | ⟨ws, ha, _⟩ | ⟨c1, m, ha, _⟩ | ⟨c1, e, ha, _⟩
        | ⟨c1, order1, m, ha, _, _, hp, rfl⟩ | ⟨ok, msg, c1, rest, ha, _⟩ | ⟨msg, ha, _⟩
      all_goals cases ha
      exact ⟨m, rfl, hp.mem_iff.mpr hmem⟩
    · intro ok msg rest s1 hhub hs
      obtain ⟨_, hc⟩ := step_some_cases hs
      rcases hc with ⟨ha, _⟩ | ⟨ws, ha, _⟩ | ⟨c1, m, ha, _⟩ | ⟨c1, e, ha, _⟩
        | ⟨c1, order1, m, ha, _⟩ | ⟨ok1, msg1, c1, rest1, ha, hh1, rfl⟩ | ⟨msg, ha, _⟩
      all_goals cases ha
      rw [hhub] at hh1
      simp only [Hub.ranging.injEq, List.cons.injEq] at hh1
      obtain ⟨rfl, rfl, rfl⟩ := hh1
      simp only [rangeBody_trace, writeAttempts, hmem, if_true, List.countP_append]
      cases ok
      · by_cases hcl : h ∈ s.world.closed <;> simp [hcl, isWriteTo, List.countP_cons]
      · simp [isWriteTo, List.countP_cons]
  · intro hdel
    obtain ⟨hk, hab⟩ := hist.2 hdel
    exact ⟨hab, fun bs s2 hrun => run_dropped h bs s s2 hk hab hrun⟩

/-- Worked instance of C4, the scenario of the specification after the
write to B failed: A is registered and in the registry; B was deleted and
is never visited again. -/
theorem registration_invariant_witness :
    ∃ s, run init (scenario ++ [Action.visit false]) = some s
      ∧ (Event.registered 0 ∈ s.world.trace ∧ Event.deleted 0 ∉ s.world.trace
          ∧ 0 ∈ mapKeys s.world.clients)
      ∧ (Event.deleted 1 ∈ s.world.trace ∧ 1 ∉ mapKeys s.world.clients
          ∧ ∀ bs s2, run s bs = some s2 →
              1 ∉ mapKeys s2.world.clients
              ∧ writeAttempts 1 s2.world.trace = writeAttempts 1 s.world.trace) := by
  have hsome : (run init (scenario ++ [Action.visit false])).isSome = true := by decide
  obtain ⟨s, hs⟩ := Option.isSome_iff_exists.mp hsome
  have h0 : (run init (scenario ++ [Action.visit false])).map
      (fun t => decide (Event.registered 0 ∈ t.world.trace ∧ Event.deleted 0 ∉ t.world.trace
        ∧ Event.deleted 1 ∈ t.world.trace)) = some true := by decide
  rw [hs] at h0
  simp only [Option.map_some', Option.some.injEq, decide_eq_true_eq] at h0
  obtain ⟨hr0, hd0, hd1⟩ := h0
  have hA := (registration_invariant _ s 0 hs).1 hr0 hd0
  have hB := (registration_invariant _ s 1 hs).2 hd1
  exact ⟨s, hs, ⟨hr0, hd0, hA.1⟩, ⟨hd1, hB.1, hB.2⟩⟩

/-! ## Order of the messages of one connection -/

theorem takenFrom_append (c : Conn) (tr es : List Event) :
    takenFrom c (tr ++ es) = takenFrom c tr ++ takenFrom c es := by
  simp [takenFrom, List.filterMap_append]

theorem readBy_append (c : Conn) (tr es : List Event) :
    readBy c (tr ++ es) = readBy c tr ++ readBy c es := by
  simp [readBy, List.filterMap_append]

theorem takenFrom_rangeBody (c : Conn) (msg : Message) (ok : Bool) (k : Conn) (w : World) :
    takenFrom c (rangeBody msg ok k w).trace = takenFrom c w.trace := by
  rw [rangeBody_trace, takenFrom_append]
  by_cases hk : k ∈ mapKeys w.clients
  · cases ok
    · by_cases hcl : k ∈ w.closed <;> simp [hk, hcl, takenFrom]
    · simp [hk, takenFrom]
  · simp [hk, takenFrom]

theorem readBy_rangeBody (c : Conn) (msg : Message) (ok : Bool) (k : Conn) (w : World) :
    readBy c (rangeBody msg ok k w).trace = readBy c w.trace := by
  rw [rangeBody_trace, readBy_append]
  by_cases hk : k ∈ mapKeys w.clients
  · cases ok
    · by_cases hcl : k ∈ w.closed <;> simp [hk, hcl, readBy]
    · simp [hk, readBy]
  · simp [hk, readBy]

theorem takenFrom_readFailure (c k : Conn) (e : ReadError) (w : World) :
    takenFrom c (readFailure k e w).trace = takenFrom c w.trace := by
  rw [readFailure_trace, takenFrom_append]
  by_cases hcl : k ∈ w.closed <;> simp [hcl, takenFrom]

theorem readBy_readFailure (c k : Conn) (e : ReadError) (w : World) :
    readBy c (readFailure k e w).trace = readBy c w.trace := by
  rw [readFailure_trace, readBy_append]
  by_cases hcl : k ∈ w.closed <;> simp [hcl, readBy]

/-- The messages taken from a connection, followed by the one its reader
is holding, are the messages the reader decoded. -/
theorem step_order {s s1 : Sys} {a : Action} (c : Conn) (hs : step s a = some s1)
    (hinv : takenFrom c s.world.trace ++ pendingOf (s.readers c) = readBy c s.world.trace) :
    takenFrom c s1.world.trace ++ pendingOf (s1.readers c) = readBy c s1.world.trace := by
  obtain ⟨_, hc⟩ := step_some_cases hs
  rcases hc with ⟨_, rfl⟩ | ⟨ws, _, hr, rfl⟩ | ⟨c1, m, _, hr, rfl⟩ | ⟨c1, e, _, hr, rfl⟩
    | ⟨c1, order, m, _, hr, _, _, rfl⟩ | ⟨ok, msg, c1, rest, _, _, rfl⟩ | ⟨msg, _, _, rfl⟩
  · simpa [takenFrom, readBy, List.filterMap_append] using hinv
  · by_cases hcw : c = ws
    · subst hcw
      rw [hr] at hinv
      simpa [takenFrom, readBy, List.filterMap_append, setReader, pendingOf] using hinv
    · simpa [takenFrom, readBy, List.filterMap_append, setReader, hcw] using hinv
  · by_cases hcw : c = c1
    · subst hcw
      rw [hr] at hinv
      simp only [pendingOf, List.append_nil] at hinv
      simp [takenFrom_append, readBy_append, setReader, pendingOf, hinv]
      simp [takenFrom, readBy]
    · have hne : ¬ c1 = c := fun e => hcw e.symm
      simp only [emit_trace, takenFrom_append, readBy_append, setReader, hcw, if_false]
      simpa [takenFrom, readBy, hne] using hinv
  · simp only [takenFrom_readFailure, readBy_readFailure]
    by_cases hcw : c = c1
    · subst hcw
      rw [hr] at hinv
      simpa [setReader, pendingOf] using hinv
    · simpa [setReader, hcw] using hinv
  · by_cases hcw : c = c1
    · subst hcw
      rw [hr] at hinv
      simp only [pendingOf] at hinv
      simp [takenFrom_append, readBy_append, setReader, pendingOf, ← hinv]
      simp [takenFrom, readBy]
    · have hne : ¬ c1 = c := fun e => hcw e.symm
      simp only [emit_trace, takenFrom_append, readBy_append, setReader, hcw, if_false]
      simpa [takenFrom, readBy, hne] using hinv
  · simpa only [takenFrom_rangeBody, readBy_rangeBody] using hinv
  · exact hinv

/-- C10. Per-connection ordering, in every reachable state (hence in every
interleaving of the readers and the broadcast loop): the messages that the
loop has taken from the channel for connection `c`, followed by the one
message its reader may be holding while blocked on the send, are exactly
the messages the reader decoded, in the same order; a reader that holds a
message reads no further one before the loop has taken it; and while a pass
is running the loop takes no message. -/
theorem per_connection_order (as : List Action) (s : Sys) (c : Conn)
    (hreach : run init as = some s) :
    takenFrom c s.world.trace ++ pendingOf (s.readers c) = readBy c s.world.trace
    ∧ (pendingOf (s.readers c)).length ≤ 1
    ∧ (pendingOf (s.readers c) = [] → takenFrom c s.world.trace = readBy c s.world.trace)
    ∧ (∀ m, s.readers c = some (Reader.sending m) →
        (∀ m1, step s (Action.readOk c m1) = none)
        ∧ (∀ e, step s (Action.readFail c e) = none))
    ∧ (∀ m todo, s.hub = Hub.ranging m todo →
        ∀ c1 order, step s (Action.handoff c1 order) = none) := by
  have hinv : takenFrom c s.world.trace ++ pendingOf (s.readers c)
      = readBy c s.world.trace := run_invariant
    (fun t => takenFrom c t.world.trace ++ pendingOf (t.readers c) = readBy c t.world.trace)
    (fun t a t1 hP hs => step_order c hs hP) as init s (by simp [init, takenFrom, readBy, pendingOf])
    hreach
  refine ⟨hinv, ?_, ?_, ?_, ?_⟩
  · cases hrc : s.readers c with
    | none => simp [pendingOf]
    | some r => cases r <;> simp [pendingOf]
  · intro hp
    rw [hp, List.append_nil] at hinv
    exact hinv
  · intro m hm
    constructor
    · intro m1
      simp [step, Action.inBroadcastLoop, handleConnectionsStep, hm]
    · intro e
      simp [step, Action.inBroadcastLoop, handleConnectionsStep, hm]
  · intro m todo hh c1 order
    cases hst : step s (Action.handoff c1 order) with
    | none => rfl
    | some s1 =>
      exfalso
      obtain ⟨_, hc⟩ := step_some_cases hst
      rcases hc with ⟨ha, _⟩ | ⟨ws, ha, _⟩ | ⟨c2, m2, ha, _⟩ | ⟨c2, e, ha, _⟩
        | ⟨c2, order2, m2, ha, _, hw, _⟩ | ⟨ok, msg, c2, rest, ha, _⟩ | ⟨msg, ha, _⟩
      all_goals cases ha
      rw [hh] at hw
      cases hw

/-- Worked instance of C10: two readers run concurrently; the loop has
taken the first message of connection 0, whose reader holds the second. -/
theorem per_connection_order_witness :
    ∃ s, run init twoSenders = some s
      ∧ takenFrom 0 s.world.trace ++ pendingOf (s.readers 0) = readBy 0 s.world.trace
      ∧ readBy 0 s.world.trace = [hello, again]
      ∧ takenFrom 0 s.world.trace = [hello] := by
  have hsome : (run init twoSenders).isSome = true := by decide
  obtain ⟨s, hs⟩ := Option.isSome_iff_exists.mp hsome
  have h0 : (run init twoSenders).map
      (fun t => (readBy 0 t.world.trace, takenFrom 0 t.world.trace))
        = some ([hello, again], [hello]) := by decide
  rw [hs] at h0
  simp only [Option.map_some', Option.some.injEq, Prod.mk.injEq] at h0
  exact ⟨s, hs, (per_connection_order twoSenders s 0 hs).1, h0.1, h0.2⟩

/-! ## The read loop -/

/-- A handler that has returned stays so, and nothing more is read by it
or taken from it. -/
theorem step_returned {s s1 : Sys} {a : Action} (c : Conn) (hs : step s a = some s1)
    (hr : s.readers c = some Reader.returned) :
    s1.readers c = some Reader.returned
    ∧ takenFrom c s1.world.trace = takenFrom c s.world.trace
    ∧ readBy c s1.world.trace = readBy c s.world.trace := by
  obtain ⟨_, hc⟩ := step_some_cases hs
  rcases hc with ⟨_, rfl⟩ | ⟨ws, _, hw, rfl⟩ | ⟨c1, m, _, hw, rfl⟩ | ⟨c1, e, _, hw, rfl⟩
    | ⟨c1, order, m, _, hw, _, _, rfl⟩ | ⟨ok, msg, c1, rest, _, _, rfl⟩ | ⟨msg, _, _, rfl⟩
  · exact ⟨hr, by simp [takenFrom, List.filterMap_append],
      by simp [readBy, List.filterMap_append]⟩
  · have hne : ¬ c = ws := by rintro rfl; rw [hr] at hw; cases hw
    exact ⟨by simp [setReader, hne, hr], by simp [takenFrom, List.filterMap_append],
      by simp [readBy, List.filterMap_append]⟩
  · have hne : ¬ c = c1 := by rintro rfl; rw [hr] at hw; cases hw
    have hne2 : ¬ c1 = c := fun e => hne e.symm
    exact ⟨by simp [setReader, hne, hr], by simp [takenFrom, List.filterMap_append],
      by simp [readBy, List.filterMap_append, hne2]⟩
  · have hne : ¬ c = c1 := by rintro rfl; rw [hr] at hw; cases hw
    exact ⟨by simp [setReader, hne, hr], takenFrom_readFailure _ _ _ _,
      readBy_readFailure _ _ _ _⟩
  · have hne : ¬ c = c1 := by rintro rfl; rw [hr] at hw; cases hw
    have hne2 : ¬ c1 = c := fun e => hne e.symm
    exact ⟨by simp [setReader, hne, hr], by simp [takenFrom, List.filterMap_append, hne2],
      by simp [readBy, List.filterMap_append]⟩
  · exact ⟨hr, takenFrom_rangeBody _ _ _ _ _, readBy_rangeBody _ _ _ _ _⟩
  · exact ⟨hr, rfl, rfl⟩

/-- C5. The read loop of `handleConnections`.  When `ReadJSON` fails, for
whatever reason, the handler forwards nothing, removes its handle from the
registry, the handle is closed, and the handler has returned for good.
When `ReadJSON` succeeds, the handler holds exactly the decoded message and
can do nothing but hand it to the broadcast loop, which then starts its
pass with that very message; the handler is then back at `ReadJSON`. -/
theorem read_loop_contract (s : Sys) (c : Conn) (hex : s.exited = false)
    (hr : s.readers c = some Reader.reading) :
    (∀ e : ReadError, ∃ s1, step s (Action.readFail c e) = some s1
      ∧ s1.world.clients = mapDelete s.world.clients c
      ∧ c ∉ mapKeys s1.world.clients
      ∧ c ∈ s1.world.closed
      ∧ s1.readers c = some Reader.returned
      ∧ s1.hub = s.hub
      ∧ takenFrom c s1.world.trace = takenFrom c s.world.trace
      ∧ readBy c s1.world.trace = readBy c s.world.trace
      ∧ (∀ a, a.conn = some c → step s1 a = none)
      ∧ (∀ bs s2, run s1 bs = some s2 →
          s2.readers c = some Reader.returned
          ∧ takenFrom c s2.world.trace = takenFrom c s.world.trace))
    ∧ (∀ m : Message, ∃ s1, step s (Action.readOk c m) = some s1
      ∧ s1.world.clients = s.world.clients
      ∧ s1.hub = s.hub
      ∧ s1.readers c = some (Reader.sending m)
      ∧ readBy c s1.world.trace = readBy c s.world.trace ++ [m]
      ∧ takenFrom c s1.world.trace = takenFrom c s.world.trace
      ∧ (∀ a s2, a.conn = some c → step s1 a = some s2 →
          ∃ order, a = Action.handoff c order
            ∧ s2.hub = Hub.ranging m order
            ∧ s2.readers c = some Reader.reading
            ∧ takenFrom c s2.world.trace = takenFrom c s1.world.trace ++ [m])
      ∧ (s1.hub = Hub.waiting →
          ∃ s2, step s1 (Action.handoff c (mapKeys s1.world.clients)) = some s2)) := by
  constructor
  · intro e
    have hs : step s (Action.readFail c e)
        = some { s with world := readFailure c e s.world,
                        readers := setReader s.readers c Reader.returned } := by
      simp [step, hex, Action.inBroadcastLoop, handleConnectionsStep, hr]
    have hret : (setReader s.readers c Reader.returned) c = some Reader.returned := by
      simp [setReader]
    refine ⟨_, hs, readFailure_clients c e s.world, ?_,
      (mem_readFailure_closed c c e s.world).mpr (Or.inl rfl), hret, rfl,
      takenFrom_readFailure c c e s.world, readBy_readFailure c c e s.world, ?_, ?_⟩
    · rw [readFailure_clients, mem_mapKeys_mapDelete]
      exact fun h => h.2 rfl
    · intro a ha
      cases a with
      | request up =>
        cases up with
        | none => simp [Action.conn] at ha
        | some ws =>
          simp only [Action.conn, Option.some.injEq] at ha
          subst ha
          simp [step, hex, Action.inBroadcastLoop, handleConnectionsStep, setReader]
      | readOk c1 m =>
        simp only [Action.conn, Option.some.injEq] at ha
        subst ha
        simp [step, hex, Action.inBroadcastLoop, handleConnectionsStep, setReader]
      | readFail c1 e1 =>
        simp only [Action.conn, Option.some.injEq] at ha
        subst ha
        simp [step, hex, Action.inBroadcastLoop, handleConnectionsStep, setReader]
      | handoff c1 order =>
        simp only [Action.conn, Option.some.injEq] at ha
        subst ha
        simp [step, hex, Action.inBroadcastLoop, handleMessagesStep, setReader]
      | visit ok => simp [Action.conn] at ha
      | endPass => simp [Action.conn] at ha
    · intro bs s2 hrun
      have key := run_invariant
        (fun t => t.readers c = some Reader.returned
          ∧ takenFrom c t.world.trace = takenFrom c s.world.trace)
        (fun t a t1 hP hst =>
          ⟨(step_returned c hst hP.1).1, (step_returned c hst hP.1).2.1.trans hP.2⟩)
        bs _ s2 ⟨hret, takenFrom_readFailure c c e s.world⟩ hrun
      exact key
  · intro m
    have hs : step s (Action.readOk c m)
        = some { s with world := emit (Event.read c m) s.world,
                        readers := setReader s.readers c (Reader.sending m) } := by
      simp [step, hex, Action.inBroadcastLoop, handleConnectionsStep, hr]
    have hsend : (setReader s.readers c (Reader.sending m)) c = some (Reader.sending m) := by
      simp [setReader]
    refine ⟨_, hs, rfl, rfl, hsend, by simp [readBy, List.filterMap_append],
      by simp [takenFrom, List.filterMap_append], ?_, ?_⟩
    · intro a s2 ha hst
      obtain ⟨_, hc⟩ := step_some_cases hst
      rcases hc with ⟨rfl, _⟩ | ⟨ws, rfl, hw, _⟩ | ⟨c1, m1, rfl, hw, _⟩ | ⟨c1, e, rfl, hw, _⟩
        | ⟨c1, order, m1, rfl, hw, _, _, rfl⟩ | ⟨ok, msg, c1, rest, rfl, _⟩ | ⟨msg, rfl, _⟩
      · simp [Action.conn] at ha
      · simp only [Action.conn, Option.some.injEq] at ha
        subst ha
        simp [setReader] at hw
      · simp only [Action.conn, Option.some.injEq] at ha
        subst ha
        simp [setReader] at hw
      · simp only [Action.conn, Option.some.injEq] at ha
        subst ha
        simp [setReader] at hw
      · simp only [Action.conn, Option.some.injEq] at ha
        subst ha
        simp only [setReader, if_true, Option.some.injEq, Reader.sending.injEq] at hw
        subst hw
        refine ⟨order, rfl, rfl, by simp [setReader], ?_⟩
        simp [takenFrom, List.filterMap_append]
      · simp [Action.conn] at ha
      · simp [Action.conn] at ha
    · intro hw
      have hw2 : s.hub = Hub.waiting := hw
      have hp : (mapKeys s.world.clients).isPerm (mapKeys s.world.clients) = true :=
        List.isPerm_iff.mpr (List.Perm.refl _)
      exact ⟨{ world := emit (Event.taken c m) (emit (Event.read c m) s.world),
               readers := setReader (setReader s.readers c (Reader.sending m)) c Reader.reading,
               hub := Hub.ranging m (mapKeys s.world.clients),
               exited := s.exited },
        by simp [step, hex, Action.inBroadcastLoop, handleMessagesStep, hsend, hw2, hp]⟩

/-- Worked instance of C5: the only connection sends malformed input and
is dropped; or it sends `hello`, which its handler then holds. -/
theorem read_loop_contract_witness :
    (∃ s1, step oneClient (Action.readFail 0 ReadError.malformed) = some s1
      ∧ s1.world.clients = mapDelete oneClient.world.clients 0
      ∧ 0 ∉ mapKeys s1.world.clients
      ∧ 0 ∈ s1.world.closed
      ∧ s1.readers 0 = some Reader.returned)
    ∧ (∃ s1, step oneClient (Action.readOk 0 hello) = some s1
      ∧ s1.readers 0 = some (Reader.sending hello)) := by
  have h := read_loop_contract oneClient 0 rfl rfl
  obtain ⟨s1, h1, h2, h3, h4, h5, _⟩ := h.1 ReadError.malformed
  obtain ⟨t1, g1, _, _, g2, _⟩ := h.2 hello
  exact ⟨⟨s1, h1, h2, h3, h4, h5⟩, ⟨t1, g1, g2⟩⟩

/-! ## Failure of the upgrade -/

/-- C6, behaviour of the code when `upgrader.Upgrade` fails (lines 93-96):
the registry is unchanged and nothing is offered to the channel, but
`log.Fatal` ends the process: no goroutine makes a step afterwards, the
broadcast loop included. -/
theorem upgrade_failure_exits_process (s : Sys) (hex : s.exited = false) :
    ∃ s1, step s (Action.request none) = some s1
      ∧ s1.world.clients = s.world.clients
      ∧ s1.world.closed = s.world.closed
      ∧ s1.world.trace = s.world.trace ++ [Event.fatal]
      ∧ s1.readers = s.readers
      ∧ s1.hub = s.hub
      ∧ s1.exited = true
      ∧ (∀ a, step s1 a = none)
      ∧ (∀ a bs, run s1 (a :: bs) = none) := by
  refine ⟨{ s with world := emit Event.fatal s.world, exited := true }, ?_, rfl, rfl, rfl, rfl,
    rfl, rfl, ?_, ?_⟩
  · simp [step, hex, Action.inBroadcastLoop, handleConnectionsStep]
  · intro a
    simp [step]
  · intro a bs
    simp [run, step]

/-- The failing input of C6: while the second pass of the scenario is about
to write to B and C, a request that is not a WebSocket handshake reaches
`/ws`.  The process exits; the pending writes never happen. -/
theorem upgrade_failure_exits_process_witness :
    (∃ s1, step oneClient (Action.request none) = some s1
      ∧ s1.exited = true ∧ ∀ a, step s1 a = none)
    ∧ (run init (scenario ++ [Action.request none])).map (fun t => (t.exited, t.hub))
        = some (true, Hub.ranging again [1, 2])
    ∧ (run init (scenario ++ [Action.request none, Action.visit true])).isNone = true := by
  obtain ⟨s1, h1, _, _, _, _, _, h2, h3, _⟩ := upgrade_failure_exits_process oneClient rfl
  exact ⟨⟨s1, h1, h2, h3⟩, by decide, by decide⟩

/-! ## Who touches the registry -/

/-- C9 as stated fails: the goroutine of `handleConnections` inserts into
the registry (line 101) and deletes from it (line 109) itself. -/
theorem handler_mutates_registry :
    (Action.request (some 0)).inBroadcastLoop = false
    ∧ init.world.clients = []
    ∧ (run init [Action.request (some 0)]).map (fun t => t.world.clients)
        = some [(0, true)]
    ∧ (Action.readFail 0 ReadError.peerClosed).inBroadcastLoop = false
    ∧ (run init [Action.request (some 0), Action.readFail 0 ReadError.peerClosed]).map
        (fun t => t.world.clients) = some []
    ∧ ¬ (∀ (s s1 : Sys) (a : Action), step s a = some s1 →
          a.inBroadcastLoop = false → s1.world.clients = s.world.clients) := by
  refine ⟨rfl, rfl, by decide, rfl, by decide, ?_⟩
  intro h
  have h1 := h init { init with world := registerClient 0 init.world,
                                readers := setReader init.readers 0 Reader.reading }
    (Action.request (some 0)) rfl rfl
  revert h1
  decide

/-- C9, amended.  The broadcast loop is the only context that iterates the
registry, and it changes the registry only by deleting the handle whose
write failed.  A handler of `handleConnections` changes the registry only by
inserting its own handle or deleting its own handle, leaves every other
entry alone, and does not read the registry: what it does is the same
whatever the registry contains. -/
theorem registry_access_by_context (s s1 : Sys) (a : Action) (hs : step s a = some s1) :
    (a.inBroadcastLoop = true →
        s1.world.clients = s.world.clients
        ∨ ∃ msg h rest, a = Action.visit false ∧ s.hub = Hub.ranging msg (h :: rest)
            ∧ s1.world.clients = mapDelete s.world.clients h)
    ∧ (a.inBroadcastLoop = false →
        s1.hub = s.hub
        ∧ (s1.world.clients = s.world.clients
          ∨ ∃ c, a.conn = some c
              ∧ (s1.world.clients = mapSet s.world.clients c true
                ∨ s1.world.clients = mapDelete s.world.clients c))
        ∧ (∀ k, a.conn ≠ some k →
            (k ∈ mapKeys s1.world.clients ↔ k ∈ mapKeys s.world.clients))
        ∧ (∀ m : List (Conn × Bool), ∃ t1,
            step { s with world := { s.world with clients := m } } a = some t1
            ∧ t1.readers = s1.readers ∧ t1.hub = s1.hub ∧ t1.exited = s1.exited
            ∧ t1.world.closed = s1.world.closed ∧ t1.world.trace = s1.world.trace)) := by
  obtain ⟨hex, hc⟩ := step_some_cases hs
  rcases hc with ⟨rfl, rfl⟩ | ⟨ws, rfl, hw, rfl⟩ | ⟨c1, m1, rfl, hw, rfl⟩
    | ⟨c1, e, rfl, hw, rfl⟩ | ⟨c1, order, m1, rfl, hw, _, _, rfl⟩
    | ⟨ok, msg, c1, rest, rfl, hh, rfl⟩ | ⟨msg, rfl, _, rfl⟩
  · refine ⟨fun h => by simp [Action.inBroadcastLoop] at h, fun _ => ⟨rfl, Or.inl rfl, ?_, ?_⟩⟩
    · intro k _; rfl
    · intro m
      exact ⟨{ s with world := emit Event.fatal { s.world with clients := m }, exited := true },
        by simp [step, hex, Action.inBroadcastLoop, handleConnectionsStep],
        rfl, rfl, rfl, rfl, rfl⟩
  · refine ⟨fun h => by simp [Action.inBroadcastLoop] at h,
      fun _ => ⟨rfl, Or.inr ⟨ws, rfl, Or.inl rfl⟩, ?_, ?_⟩⟩
    · intro k hk
      simp only [Action.conn, ne_eq, Option.some.injEq] at hk
      simp only [registerClient_clients, mem_mapKeys_mapSet]
      constructor
      · rintro (h1 | h1)
        · exact h1
        · exact absurd h1.symm hk
      · exact fun h1 => Or.inl h1
    · intro m
      exact ⟨{ s with world := registerClient ws { s.world with clients := m },
                      readers := setReader s.readers ws Reader.reading },
        by simp [step, hex, Action.inBroadcastLoop, handleConnectionsStep, hw],
        rfl, rfl, rfl, rfl, rfl⟩
  · refine ⟨fun h => by simp [Action.inBroadcastLoop] at h, fun _ => ⟨rfl, Or.inl rfl, ?_, ?_⟩⟩
    · intro k _; rfl
    · intro m
      exact ⟨{ s with world := emit (Event.read c1 m1) { s.world with clients := m },
                      readers := setReader s.readers c1 (Reader.sending m1) },
        by simp [step, hex, Action.inBroadcastLoop, handleConnectionsStep, hw],
        rfl, rfl, rfl, rfl, rfl⟩
  · refine ⟨fun h => by simp [Action.inBroadcastLoop] at h,
      fun _ => ⟨rfl, Or.inr ⟨c1, rfl, Or.inr (readFailure_clients _ _ _)⟩, ?_, ?_⟩⟩
    · intro k hk
      simp only [Action.conn, ne_eq, Option.some.injEq] at hk
      simp only [readFailure_clients, mem_mapKeys_mapDelete]
      exact ⟨fun h1 => h1.1, fun h1 => ⟨h1, fun e => hk e.symm⟩⟩
    · intro m
      refine ⟨{ s with world := readFailure c1 e { s.world with clients := m },
                       readers := setReader s.readers c1 Reader.returned },
        by simp [step, hex, Action.inBroadcastLoop, handleConnectionsStep, hw],
        rfl, rfl, rfl, ?_, ?_⟩
      · simp only [readFailure, connClose_closed, deleteClient_closed, emit_closed]
      · simp only [readFailure_trace]
  · refine ⟨fun _ => Or.inl rfl, fun h => by simp [Action.inBroadcastLoop] at h⟩
  · refine ⟨fun _ => ?_, fun h => by simp [Action.inBroadcastLoop] at h⟩
    rw [rangeBody_clients]
    cases ok
    · by_cases hk : c1 ∈ mapKeys s.world.clients
      · exact Or.inr ⟨msg, c1, rest, rfl, hh, by simp⟩
      · exact Or.inl (by simp [mapDelete_of_not_mem _ _ hk])
    · exact Or.inl (by simp)
  · refine ⟨fun _ => Or.inl rfl, fun h => by simp [Action.inBroadcastLoop] at h⟩

/-- Worked instance of the amended C9: registering connection 1 next to
connection 0 inserts the entry of 1 and leaves the entry of 0 alone. -/
theorem registry_access_by_context_witness :
    (Action.request (some 1)).inBroadcastLoop = false
    ∧ ((run init [Action.request (some 0), Action.request (some 1)]).map
        (fun t => t.world.clients) = some [(0, true), (1, true)])
    ∧ ∃ s1, step oneClient (Action.request (some 1)) = some s1
        ∧ (0 ∈ mapKeys s1.world.clients ↔ 0 ∈ mapKeys oneClient.world.clients) := by
  refine ⟨rfl, by decide, ?_⟩
  have hs : step oneClient (Action.request (some 1))
      = some { oneClient with world := registerClient 1 oneClient.world,
                              readers := setReader oneClient.readers 1 Reader.reading } := rfl
  exact ⟨_, hs,
    ((registry_access_by_context oneClient _ (Action.request (some 1)) hs).2 rfl).2.2.1 0
      (by decide)⟩

/-! ## The send-failure path and the handler of the failed connection -/

end GoWebSocket
